import Mathlib

/-!
# Verification of the `consistenthash` hash ring (smol-go/smol-hash)

Shallow embedding of `pkg/consistenthash` (`HashRing`, `Node`) from the
repository source:

* Go maps become association lists (`alookup` / `ainsert` / `aupdate` /
  `aerase`); map iteration order never influences any observation the claims
  make (per-key processing in `rebalanceKeys` is order-independent in the
  code, and `updateMaxLoads` writes the same value to every node).
* Go `int` fields (`Load`, `MaxLoad`, `totalKeys`, `virtualNodes`) become `ℤ`;
  `float64` (`loadFactor`, the average-load computation) becomes `ℚ`, with
  Go truncating `int(x)` conversion modelled by `intTrunc` (truncation
  toward zero).  All claim-relevant computations stay on exactly
  representable dyadic values or are insensitive to the float/rational gap.
* The hasher is the §4.1 contract: a fixed pure function `String → ℕ`
  truncated to 32 bits (`hashOf`).  The source instantiates it with the
  first four bytes of SHA-256; every ring algorithm is parametric in it,
  so theorems quantified over `hashFn` cover the source's instance.
* Go's `sort.Slice` on `[]uint32` becomes `List.insertionSort (· ≤ ·)`:
  on numeric values any correct sort produces the same list.
* Go run-time panics (nil-map dereference, index out of range) are modelled
  by an outer `Option`: `none` is a panic, `some (state, result)` a normal
  return.  Early error returns leave the state unchanged, which the
  translation makes explicit by returning the input state with the error.
-/

namespace SmolHash

/-- Error kinds of the ring (spec §7): `noNodes` is the spec's `Empty`,
`notFound` is `NotFound`, `alreadyExists` is `AlreadyExists`. -/
inductive RErr where
  | alreadyExists
  | notFound
  | noNodes
  deriving Repr, DecidableEq

/-- Association-list lookup (Go map read returning `(value, ok)`). -/
def alookup {α β : Type} [DecidableEq α] (l : List (α × β)) (k : α) : Option β :=
  (l.find? (fun p => p.1 = k)).map Prod.snd

/-- Association-list erase (Go `delete(m, k)`). -/
def aerase {α β : Type} [DecidableEq α] (l : List (α × β)) (k : α) : List (α × β) :=
  l.filter (fun p => ¬ p.1 = k)

/-- Association-list insert/overwrite (Go `m[k] = v`). -/
def ainsert {α β : Type} [DecidableEq α] (l : List (α × β)) (k : α) (v : β) :
    List (α × β) :=
  aerase l k ++ [(k, v)]

/-- Update the value stored at a key in place (Go mutation through a map
of pointers). -/
def aupdate {α β : Type} [DecidableEq α] (l : List (α × β)) (k : α) (f : β → β) :
    List (α × β) :=
  l.map (fun p => if p.1 = k then (p.1, f p.2) else p)

/-- Truncated division toward zero on `ℤ` (Go's `int(x)` conversion applied
to an exact fraction `a / b`), written with `ℕ` division so that concrete
instances evaluate by kernel reduction. -/
def intTrunc (a b : ℤ) : ℤ :=
  if 0 ≤ a ↔ 0 ≤ b then ((a.natAbs / b.natAbs : ℕ) : ℤ)
  else -((a.natAbs / b.natAbs : ℕ) : ℤ)

/-- `Node` from `node.go`: one physical endpoint with its load counters. -/
structure Node where
  ID : String
  Host : String
  Load : ℤ
  MaxLoad : ℤ
  Metadata : List (String × String)
  deriving Repr, DecidableEq

/-- `NewNode` from `node.go`. -/
def NewNode (id host : String) : Node :=
  { ID := id, Host := host, Load := 0, MaxLoad := 0, Metadata := [] }

/-- `Node.CanAcceptKey`: `MaxLoad == 0` means unbounded, otherwise
`Load < MaxLoad`. -/
def Node.CanAcceptKey (n : Node) : Bool :=
  if n.MaxLoad = 0 then true else decide (n.Load < n.MaxLoad)

/-- `Node.IncrementLoad`. -/
def Node.IncrementLoad (n : Node) : Node :=
  { n with Load := n.Load + 1 }

/-- `Node.DecrementLoad`: guarded so the counter never goes below zero. -/
def Node.DecrementLoad (n : Node) : Node :=
  if 0 < n.Load then { n with Load := n.Load - 1 } else n

/-- `Node.ResetLoad`. -/
def Node.ResetLoad (n : Node) : Node :=
  { n with Load := 0 }

/-- `Config` from `hash.go`. -/
structure Config where
  VirtualNodes : ℤ
  LoadFactor : ℚ
  deriving Repr, DecidableEq

/-- `DefaultConfig` from `hash.go`. -/
def DefaultConfig : Config :=
  { VirtualNodes := 150, LoadFactor := 5 / 4 }

/-- `HashRing` from `hash.go`.  `hashFn` is the §4.1 hasher the source fixes
to SHA-256 truncated to 32 bits; the algorithms below are parametric in it. -/
structure HashRing where
  hashFn : String → ℕ
  nodes : List (String × Node)
  ring : List ℕ
  ringMap : List (ℕ × String)
  virtualNodes : ℤ
  totalKeys : ℤ
  loadFactor : ℚ
  keyAssignment : List (String × String)

/-- `NewHashRing`: non-positive config values are replaced by the defaults. -/
def NewHashRing (hf : String → ℕ) (config : Config) : HashRing :=
  { hashFn := hf
    nodes := []
    ring := []
    ringMap := []
    virtualNodes := if config.VirtualNodes ≤ 0 then 150 else config.VirtualNodes
    totalKeys := 0
    loadFactor := if config.LoadFactor ≤ 0 then 5 / 4 else config.LoadFactor
    keyAssignment := [] }

/-- `HashRing.hash`: the hasher truncated to the 32-bit keyspace. -/
def hashOf (h : HashRing) (key : String) : ℕ :=
  h.hashFn key % 2 ^ 32

/-- `search` from `hash.go`: index of the first ring entry `≥ hashVal`
(`sort.Search` on the sorted ring), wrapping to `0` past the end. -/
def searchIdx (ring : List ℕ) (hashVal : ℕ) : ℕ :=
  match ring.findIdx? (fun x => hashVal ≤ x) with
  | some i => i
  | none => 0

/-- `getNodeForHash`: owner lookup for a hash value.  `none` models the Go
panic on an empty ring / the `nil` returned for a dangling `ringMap` entry. -/
def getNodeForHash (h : HashRing) (hashVal : ℕ) : Option Node :=
  match h.ring[searchIdx h.ring hashVal]? with
  | none => none
  | some p => alookup h.nodes ((alookup h.ringMap p).getD "")

/-- The max-load formula of `updateMaxLoads` as a function of the total key
count, the live node count and the load factor.
Go: `int(avgLoad*loadFactor + 0.5)`, replaced by `1` when it is `0`.
The value `avgLoad*loadFactor + 0.5 = totalKeys/nodeCount * lf + 1/2` is the
exact fraction `(2*totalKeys*lf.num + nodeCount*lf.den) / (2*nodeCount*lf.den)`,
truncated toward zero as Go's `int()` does. -/
def mkMax (totalKeys : ℤ) (nodeCount : ℕ) (lf : ℚ) : ℤ :=
  let m := intTrunc (2 * totalKeys * lf.num + (nodeCount : ℤ) * (lf.den : ℤ))
    (2 * (nodeCount : ℤ) * (lf.den : ℤ))
  if m = 0 then 1 else m

/-- `updateMaxLoads`: the value written into every node's `MaxLoad`. -/
def computeMaxLoad (h : HashRing) : ℤ :=
  mkMax h.totalKeys h.nodes.length h.loadFactor

/-- `updateMaxLoads` from `hash.go`: no-op on an empty node set, otherwise
stores `computeMaxLoad` into every node. -/
def updateMaxLoads (h : HashRing) : HashRing :=
  if h.nodes.isEmpty then h
  else
    let m := computeMaxLoad h
    { h with nodes := h.nodes.map (fun p => (p.1, { p.2 with MaxLoad := m })) }

/-- One step of `rebalanceKeys`: re-derive `key`'s owner with the plain
nearest-node lookup, increment its load (Go indexes `h.nodes` by the derived
node's `ID` field), record the new assignment.  `none` models the panics:
lookup on an empty ring, or `h.nodes[nodeID]` missing. -/
def rebalanceStep (h : HashRing) (key : String) : Option HashRing :=
  match getNodeForHash h (hashOf h key) with
  | none => none
  | some n =>
    match alookup h.nodes n.ID with
    | none => none
    | some _ =>
      some { h with
        nodes := aupdate h.nodes n.ID Node.IncrementLoad
        keyAssignment := ainsert h.keyAssignment key n.ID }

/-- The key-processing loop of `rebalanceKeys`. -/
def rebalanceGo (h : HashRing) : List String → Option HashRing
  | [] => some h
  | k :: ks => match rebalanceStep h k with
    | none => none
    | some h1 => rebalanceGo h1 ks

/-- `rebalanceKeys` from `hash.go`: reset every load to `0`, then re-derive
every assigned key's owner via `getNodeForHash`, rebuilding load counters. -/
def rebalanceKeys (h : HashRing) : Option HashRing :=
  let keys := h.keyAssignment.map Prod.fst
  let reset : HashRing :=
    { h with nodes := h.nodes.map (fun p => (p.1, p.2.ResetLoad))
             keyAssignment := [] }
  rebalanceGo reset keys

/-- Virtual-position hashes of a node: `hash("{id}#{i}")` for
`i ∈ [0, virtualNodes)`. -/
def virtualHashes (h : HashRing) (id : String) : List ℕ :=
  (List.range h.virtualNodes.toNat).map (fun i => hashOf h (id ++ "#" ++ toString i))

/-- `AddNode` from `hash.go`. -/
def AddNode (h : HashRing) (node : Node) : Option (HashRing × Except RErr Unit) :=
  if (alookup h.nodes node.ID).isSome then some (h, .error .alreadyExists)
  else
    let hashes := virtualHashes h node.ID
    let h1 : HashRing :=
      { h with
        nodes := ainsert h.nodes node.ID node
        ring := List.insertionSort (· ≤ ·) (h.ring ++ hashes)
        ringMap := hashes.foldl (fun m p => ainsert m p node.ID) h.ringMap }
    let h2 := updateMaxLoads h1
    (rebalanceKeys h2).map (fun h3 => (h3, .ok ()))

/-- One iteration of the ring-filtering loop of `RemoveNode`: keep the
position when its current owner is not `id`, otherwise drop it and delete it
from the (mutating) map. -/
def rreStep (id : String) (acc : List ℕ × List (ℕ × String)) (p : ℕ) :
    List ℕ × List (ℕ × String) :=
  if (alookup acc.2 p).getD "" ≠ id then (acc.1 ++ [p], acc.2)
  else (acc.1, aerase acc.2 p)

/-- The ring-filtering loop of `RemoveNode`: walk the position list, dropping
(and deleting from `ringMap`) every position currently mapped to `id`.
The map is read as it is being mutated, exactly as in the source. -/
def removeRingEntries (ring : List ℕ) (ringMap : List (ℕ × String)) (id : String) :
    List ℕ × List (ℕ × String) :=
  ring.foldl (rreStep id) ([], ringMap)

/-- `RemoveNode` from `hash.go`. -/
def RemoveNode (h : HashRing) (nodeID : String) : Option (HashRing × Except RErr Unit) :=
  match alookup h.nodes nodeID with
  | none => some (h, .error .notFound)
  | some node =>
    let rm := removeRingEntries h.ring h.ringMap nodeID
    let h1 : HashRing :=
      { h with
        ring := rm.1
        ringMap := rm.2
        totalKeys := h.totalKeys - node.Load
        nodes := aerase h.nodes nodeID }
    let h2 := updateMaxLoads h1
    (rebalanceKeys h2).map (fun h3 => (h3, .ok ()))

/-- `GetNode` from `hash.go`: read-only lookup; `.ok none` models the `nil`
node Go would return on a dangling `ringMap` entry. -/
def GetNode (h : HashRing) (key : String) : Except RErr (Option Node) :=
  if h.nodes.isEmpty then .error .noNodes
  else .ok (getNodeForHash h (hashOf h key))

/-- Result of the capacity-bounded forward walk. -/
inductive WalkRes where
  | panicked
  | found (idx : ℕ) (nodeID : String) (n : Node)
  | exhausted
  deriving Repr

/-- The walk of `GetNodeWithBoundedLoad`: offsets `i, i+1, …` (with `r`
steps remaining) from `start`, modulo the ring length, stopping at the
first node whose `CanAcceptKey` holds. -/
def walkAux (h : HashRing) (start : ℕ) : ℕ → ℕ → WalkRes
  | _, 0 => .exhausted
  | i, r + 1 =>
    let idx := (start + i) % h.ring.length
    match h.ring[idx]? with
    | none => .panicked
    | some p =>
      let nid := (alookup h.ringMap p).getD ""
      match alookup h.nodes nid with
      | none => .panicked
      | some n =>
        if n.CanAcceptKey then .found idx nid n else walkAux h start (i + 1) r

/-- Record `key ↦ nid`, incrementing the node's load and the total count
(the common tail of both assignment paths in `GetNodeWithBoundedLoad`). -/
def assignTo (h : HashRing) (key nid : String) : HashRing :=
  { h with
    nodes := aupdate h.nodes nid Node.IncrementLoad
    keyAssignment := ainsert h.keyAssignment key nid
    totalKeys := h.totalKeys + 1 }

/-- The not-already-assigned path of `GetNodeWithBoundedLoad`: walk once
around the ring; on exhaustion fall back to the originally hashed position
`start`, incrementing its owner past the cap. -/
def assignFresh (h : HashRing) (key : String) (start : ℕ) :
    Option (HashRing × Except RErr Node) :=
  match walkAux h start 0 h.ring.length with
  | .panicked => none
  | .found _ nid n => some (assignTo h key nid, .ok n.IncrementLoad)
  | .exhausted =>
    match h.ring[start]? with
    | none => none
    | some p =>
      let nid := (alookup h.ringMap p).getD ""
      match alookup h.nodes nid with
      | none => none
      | some n => some (assignTo h key nid, .ok n.IncrementLoad)

/-- `GetNodeWithBoundedLoad` from `hash.go`. -/
def GetNodeWithBoundedLoad (h : HashRing) (key : String) :
    Option (HashRing × Except RErr Node) :=
  if h.nodes.isEmpty then some (h, .error .noNodes)
  else
    let hashVal := hashOf h key
    let start := searchIdx h.ring hashVal
    match alookup h.keyAssignment key with
    | some nid =>
      match alookup h.nodes nid with
      | some n => some (h, .ok n)
      | none => assignFresh { h with keyAssignment := aerase h.keyAssignment key } key start
    | none => assignFresh h key start

/-- `RemoveKey` from `hash.go` (the spec's `ReleaseKey`). -/
def RemoveKey (h : HashRing) (key : String) : HashRing × Except RErr Unit :=
  match alookup h.keyAssignment key with
  | none => (h, .error .notFound)
  | some nid =>
    let h1 := match alookup h.nodes nid with
      | some _ => { h with nodes := aupdate h.nodes nid Node.DecrementLoad }
      | none => h
    ({ h1 with
        keyAssignment := aerase h1.keyAssignment key
        totalKeys := h1.totalKeys - 1 },
      .ok ())

/-- The numbers reported by `Stats`. -/
structure RingStats where
  totalNodes : ℕ
  totalKeys : ℤ
  virtualNodes : ℤ
  loadFactor : ℚ
  ringSize : ℕ
  nodeStats : List (String × ℤ × ℤ)
  deriving Repr, DecidableEq

/-- `Stats` from `hash.go`. -/
def Stats (h : HashRing) : RingStats :=
  { totalNodes := h.nodes.length
    totalKeys := h.totalKeys
    virtualNodes := h.virtualNodes
    loadFactor := h.loadFactor
    ringSize := h.ring.length
    nodeStats := h.nodes.map (fun p => (p.2.ID, p.2.Load, p.2.MaxLoad)) }

/-- `GetNodes` from `hash.go`. -/
def GetNodes (h : HashRing) : List Node :=
  h.nodes.map Prod.snd

/-- Sum of all tracked nodes' load counters. -/
def sumLoads (h : HashRing) : ℤ :=
  (h.nodes.map (fun p => p.2.Load)).sum

/-! ## Observation helpers used by the theorem statements -/

/-- The identifiers under which nodes are tracked. -/
def nodeKeys (h : HashRing) : List String :=
  h.nodes.map Prod.fst

/-- The identity-and-capacity skeleton of the node table: everything except
the mutable `Load` counters. -/
def nodesProj (h : HashRing) : List (String × String × ℤ) :=
  h.nodes.map (fun p => (p.1, p.2.ID, p.2.MaxLoad))

/-- Everything an operation on loads/assignments leaves untouched: the
topology, the configuration and the node skeleton (`totalKeys` is tracked
separately, since assignments move it). -/
def frame (h : HashRing) :
    List ℕ × List (ℕ × String) × ℤ × ℚ × (String → ℕ) ×
      List (String × String × ℤ) :=
  (h.ring, h.ringMap, h.virtualNodes, h.loadFactor, h.hashFn, nodesProj h)

/-- The load counter currently recorded for a node id (`0` if untracked). -/
def loadOf (h : HashRing) (id : String) : ℤ :=
  ((alookup h.nodes id).map Node.Load).getD 0

/-- The `MaxLoad` values of all tracked nodes, in table order. -/
def maxLoads (h : HashRing) : List ℤ :=
  h.nodes.map (fun p => p.2.MaxLoad)

/-- The node id the plain nearest-position lookup derives for a key. -/
def ownerD (h : HashRing) (key : String) : String :=
  ((getNodeForHash h (hashOf h key)).map Node.ID).getD ""

/-- How many ring positions currently map to a node id. -/
def ownsCount (h : HashRing) (id : String) : ℕ :=
  (h.ring.filter (fun p => decide ((alookup h.ringMap p).getD "" = id))).length

/-- Topology well-formedness: the position list is sorted and duplicate-free,
every position is owned by a live node, every live node owns exactly
`virtualNodes` positions, and the list length is `virtualNodes × liveNodes`. -/
def RingWF (h : HashRing) : Prop :=
  h.ring.Pairwise (· ≤ ·) ∧
  h.ring.Nodup ∧
  (nodeKeys h).Nodup ∧
  (∀ p ∈ h.ring, (alookup h.ringMap p).getD "" ∈ nodeKeys h) ∧
  (∀ id ∈ nodeKeys h, ownsCount h id = h.virtualNodes.toNat) ∧
  h.ring.length = h.virtualNodes.toNat * h.nodes.length

/-- Well-formedness after an operation that may have panicked. -/
def RingWFAfter (o : Option (HashRing × Except RErr Unit)) : Prop :=
  ∀ s, o = some s → RingWF s.1

/-- Freshness of a node's virtual positions: pairwise distinct and absent
from the current ring (the claims' "no hash collision" proviso). -/
def FreshHashes (h : HashRing) (id : String) : Prop :=
  (virtualHashes h id).Nodup ∧ ∀ p ∈ virtualHashes h id, p ∉ h.ring

/-! ## The rebalance procedure the spec describes (refinement target)

Modelled from the spec: "`rebalance()` … re-derives every existing key's
owning node by re-running step 2 of `AssignKey` for each key in the
assignment table (ignoring the 'already assigned' shortcut), rebuilding load
counters from scratch" — i.e. the capacity-bounded forward walk that skips
nodes failing `CanAccept`, not the plain nearest lookup.  Compared with the
source's `rebalanceKeys` by claim C2. -/

/-- Modelled from the spec: one key of the spec's rebalance — step 2 of
`AssignKey`, the capacity-bounded forward walk (with the step-3 fallback to
the originally hashed position, read charitably from `AssignKey`). -/
def rebalanceSpecStep (h : HashRing) (key : String) : Option HashRing :=
  let start := searchIdx h.ring (hashOf h key)
  match walkAux h start 0 h.ring.length with
  | .panicked => none
  | .found _ nid _ =>
      some { h with
        nodes := aupdate h.nodes nid Node.IncrementLoad
        keyAssignment := ainsert h.keyAssignment key nid }
  | .exhausted =>
    match h.ring[start]? with
    | none => none
    | some p =>
      let nid := (alookup h.ringMap p).getD ""
      match alookup h.nodes nid with
      | none => none
      | some _ =>
          some { h with
            nodes := aupdate h.nodes nid Node.IncrementLoad
            keyAssignment := ainsert h.keyAssignment key nid }

/-- Modelled from the spec: the spec's rebalance loop over the keys. -/
def rebalanceSpecGo (h : HashRing) : List String → Option HashRing
  | [] => some h
  | k :: ks => match rebalanceSpecStep h k with
    | none => none
    | some h1 => rebalanceSpecGo h1 ks

/-- Modelled from the spec: the whole spec rebalance — reset every load to
`0`, then re-run the bounded walk for each assigned key, in the given
iteration order. -/
def rebalanceSpec (h : HashRing) (order : List String) : Option HashRing :=
  let reset : HashRing :=
    { h with nodes := h.nodes.map (fun p => (p.1, p.2.ResetLoad))
             keyAssignment := [] }
  rebalanceSpecGo reset order

/-! ## Concrete scenario states

A small deterministic hasher standing in for the §4.1 contract, one virtual
node per physical node, and the runs the counterexamples and witnesses
evaluate. -/

/-- A concrete hasher: places node `A` at 100, node `B` at 200, and the keys
`x`, `y`, `k` at 50, 60, 150. -/
def cexHash : String → ℕ := fun s =>
  if s = "A#0" then 100 else if s = "B#0" then 200 else
  if s = "x" then 50 else if s = "y" then 60 else
  if s = "k" then 150 else 0

/-- The load factor 1.25 as a reduced-fraction literal (so concrete runs
evaluate by kernel reduction). -/
def lf54 : ℚ := ⟨5, 4, by decide, by decide⟩

/-- The load factor 1.2 as a reduced-fraction literal. -/
def lf65 : ℚ := ⟨6, 5, by decide, by decide⟩

/-- One virtual node per physical node, the default load factor 1.25. -/
def cfg1 : Config := { VirtualNodes := 1, LoadFactor := lf54 }

/-- The empty ring the concrete runs start from. -/
def baseRing : HashRing := NewHashRing cexHash cfg1

/-- Node values used by the concrete runs. -/
def nodeA : Node := NewNode "A" "hostA"

/-- Second node value used by the concrete runs. -/
def nodeB : Node := NewNode "B" "hostB"

/-- Keep only the state of an operation result. -/
def afterOp {α : Type} (o : Option (HashRing × Except RErr α)) : Option HashRing :=
  o.map Prod.fst

/-- C3 run, step 1: add node `A`. -/
def c3s1 : Option HashRing := afterOp (AddNode baseRing nodeA)

/-- C3 run, step 2: add node `B`. -/
def c3s2 : Option HashRing := c3s1.bind (fun h => afterOp (AddNode h nodeB))

/-- C3 run, step 3: assign key `k` (it lands on `B`). -/
def c3s3 : Option HashRing := c3s2.bind (fun h => afterOp (GetNodeWithBoundedLoad h "k"))

/-- C3 run, step 4: remove `B`, the owner of `k`; rebalance moves `k` to
`A` but `RemoveNode` has already subtracted `B`'s load from `totalKeys`. -/
def c3s4 : Option HashRing := c3s3.bind (fun h => afterOp (RemoveNode h "B"))

/-- C1 scenario (a): one node, two bounded-load assignments; `MaxLoad` is
never recomputed by assignments. -/
def c1runA : Option HashRing :=
  (afterOp (AddNode baseRing nodeA)).bind fun h1 =>
    (afterOp (GetNodeWithBoundedLoad h1 "x")).bind fun h2 =>
      afterOp (GetNodeWithBoundedLoad h2 "y")

/-- Load factor 1.2, for C1 scenario (b). -/
def cfgB : Config := { VirtualNodes := 1, LoadFactor := lf65 }

/-- C1 scenario (b): nodes `A`,`B`, one key on `A`, then remove `B`; the
membership-change recomputation rounds `1 · 1.2 + 0.5` down to `1`, while
`ceil(1 · 1.2) = 2`. -/
def c1runB : Option HashRing :=
  (afterOp (AddNode (NewHashRing cexHash cfgB) nodeA)).bind fun h1 =>
    (afterOp (AddNode h1 nodeB)).bind fun h2 =>
      (afterOp (GetNodeWithBoundedLoad h2 "x")).bind fun h3 =>
        afterOp (RemoveNode h3 "B")

/-- The state `rebalanceKeys` runs on in C2's counterexample: nodes `A`,`B`
with `MaxLoad = 1`, keys `x`,`y` both hashing nearest to `A` (reached by
`AddNode A; AssignKey x; AssignKey y; AddNode B`, just before the rebalance
inside the second `AddNode`). -/
def c2H : HashRing :=
  { hashFn := cexHash
    nodes := [("A", { ID := "A", Host := "hostA", Load := 2, MaxLoad := 1, Metadata := [] }),
              ("B", { ID := "B", Host := "hostB", Load := 0, MaxLoad := 1, Metadata := [] })]
    ring := [100, 200]
    ringMap := [(100, "A"), (200, "B")]
    virtualNodes := 1
    totalKeys := 2
    loadFactor := lf54
    keyAssignment := [("x", "A"), ("y", "A")] }

/-- Witness state for C4: both nodes at capacity, no spare room anywhere. -/
def c4H : HashRing :=
  { hashFn := cexHash
    nodes := [("A", { ID := "A", Host := "hostA", Load := 1, MaxLoad := 1, Metadata := [] }),
              ("B", { ID := "B", Host := "hostB", Load := 1, MaxLoad := 1, Metadata := [] })]
    ring := [100, 200]
    ringMap := [(100, "A"), (200, "B")]
    virtualNodes := 1
    totalKeys := 2
    loadFactor := lf54
    keyAssignment := [("x", "A"), ("y", "B")] }

/-- Witness state for C5/C8: one node `A` holding the assigned key `x`. -/
def c5H : HashRing :=
  { hashFn := cexHash
    nodes := [("A", { ID := "A", Host := "hostA", Load := 1, MaxLoad := 1, Metadata := [] })]
    ring := [100]
    ringMap := [(100, "A")]
    virtualNodes := 1
    totalKeys := 1
    loadFactor := lf54
    keyAssignment := [("x", "A")] }

/-! ## Association-list lemmas -/

section Assoc

variable {α β γ : Type} [DecidableEq α]

theorem alookup_cons (q : α × β) (l : List (α × β)) (k : α) :
    alookup (q :: l) k = if q.1 = k then some q.2 else alookup l k := by
  by_cases hqk : q.1 = k <;> simp [alookup, hqk]

theorem alookup_eq_none {l : List (α × β)} {k : α} :
    alookup l k = none ↔ k ∉ l.map Prod.fst := by
  induction l with
  | nil => simp [alookup]
  | cons q l ih =>
    rw [alookup_cons]
    by_cases h : q.1 = k
    · simp [h]
    · rw [if_neg h, ih]
      simp only [List.map_cons, List.mem_cons]
      constructor
      · intro hnone hmem
        rcases hmem with h1 | h2
        · exact h h1.symm
        · exact hnone h2
      · intro hmem hm
        exact hmem (Or.inr hm)

theorem alookup_aerase (l : List (α × β)) (k k' : α) :
    alookup (aerase l k) k' = if k' = k then none else alookup l k' := by
  induction l with
  | nil => by_cases h : k' = k <;> simp [aerase, alookup, h]
  | cons q l ih =>
    simp only [aerase, List.filter_cons]
    by_cases hq : q.1 = k
    · rw [if_neg (by simp [hq])]
      show alookup (aerase l k) k' = _
      rw [ih]
      by_cases h : k' = k
      · rw [if_pos h, if_pos h]
      · rw [if_neg h, if_neg h, alookup_cons,
          if_neg (fun hqk : q.1 = k' => h (hqk ▸ hq))]
    · rw [if_pos (by simp [hq]), alookup_cons]
      by_cases hqk : q.1 = k'
      · have hkk : ¬ k' = k := fun hh => hq (hqk.trans hh)
        rw [if_pos hqk, if_neg hkk, alookup_cons, if_pos hqk]
      · rw [if_neg hqk]
        show alookup (aerase l k) k' = _
        rw [ih]
        by_cases h : k' = k
        · rw [if_pos h, if_pos h]
        · rw [if_neg h, if_neg h, alookup_cons, if_neg hqk]

theorem aerase_of_absent {l : List (α × β)} {k : α} (h : alookup l k = none) :
    aerase l k = l := by
  rw [alookup_eq_none] at h
  unfold aerase
  rw [List.filter_eq_self]
  intro p hp
  have : p.1 ≠ k := fun hpk => h (hpk ▸ List.mem_map_of_mem Prod.fst hp)
  simp [this]

theorem alookup_append (l1 l2 : List (α × β)) (k : α) :
    alookup (l1 ++ l2) k = (alookup l1 k).or (alookup l2 k) := by
  unfold alookup
  rw [List.find?_append]
  cases List.find? (fun p => decide (p.1 = k)) l1 <;> simp

theorem alookup_ainsert (l : List (α × β)) (k k' : α) (v : β) :
    alookup (ainsert l k v) k' = if k' = k then some v else alookup l k' := by
  unfold ainsert
  rw [alookup_append]
  by_cases h : k' = k
  · subst h
    rw [alookup_aerase, if_pos rfl, alookup_cons, if_pos rfl]
    simp
  · rw [alookup_aerase, if_neg h, alookup_cons,
      if_neg (fun hh => h hh.symm), if_neg h]
    show (alookup l k').or (alookup ([] : List (α × β)) k') = alookup l k'
    cases alookup l k' <;> simp [alookup]

theorem keys_aupdate (l : List (α × β)) (k : α) (f : β → β) :
    (aupdate l k f).map Prod.fst = l.map Prod.fst := by
  unfold aupdate
  rw [List.map_map]
  apply List.map_congr_left
  intro p _
  by_cases h : p.1 = k <;> simp [h]

theorem alookup_aupdate (l : List (α × β)) (k k' : α) (f : β → β) :
    alookup (aupdate l k f) k' =
      if k' = k then (alookup l k).map f else alookup l k' := by
  induction l with
  | nil => by_cases h : k' = k <;> simp [aupdate, alookup, h]
  | cons q l ih =>
    simp only [aupdate, List.map_cons]
    by_cases hq : q.1 = k
    · rw [if_pos hq, alookup_cons]
      by_cases hqk : q.1 = k'
      · have hk : k' = k := hqk ▸ hq
        rw [if_pos hqk, if_pos hk, alookup_cons, if_pos (hk ▸ hqk)]
        simp
      · rw [if_neg hqk]
        show alookup (aupdate l k f) k' = _
        rw [ih]
        by_cases h : k' = k
        · exact absurd (hq.trans h.symm) hqk
        · rw [if_neg h, if_neg h, alookup_cons, if_neg hqk]
    · rw [if_neg hq, alookup_cons]
      by_cases hqk : q.1 = k'
      · have hk : ¬ k' = k := fun hh => hq (hqk.trans hh)
        rw [if_pos hqk, if_neg hk, alookup_cons, if_pos hqk]
      · rw [if_neg hqk]
        show alookup (aupdate l k f) k' = _
        rw [ih]
        by_cases h : k' = k
        · rw [if_pos h, if_pos h, alookup_cons, if_neg (h ▸ hqk)]
        · rw [if_neg h, if_neg h, alookup_cons, if_neg hqk]

theorem alookup_map_value (l : List (α × β)) (g : β → γ) (k : α) :
    alookup (l.map (fun p => (p.1, g p.2))) k = (alookup l k).map g := by
  induction l with
  | nil => simp [alookup]
  | cons q l ih =>
    by_cases h : q.1 = k <;>
      simp [alookup_cons, h, ih]

theorem aupdate_map_value {f : β → β} {g : β → γ} (hg : ∀ b, g (f b) = g b)
    (l : List (α × β)) (k : α) :
    (aupdate l k f).map (fun p => (p.1, g p.2)) = l.map (fun p => (p.1, g p.2)) := by
  unfold aupdate
  rw [List.map_map]
  apply List.map_congr_left
  intro p _
  by_cases h : p.1 = k <;> simp [h, hg]

theorem alookup_map_proj {l l' : List (α × β)} (g : β → γ)
    (hp : l'.map (fun p => (p.1, g p.2)) = l.map (fun p => (p.1, g p.2))) (k : α) :
    (alookup l' k).map g = (alookup l k).map g := by
  induction l' generalizing l with
  | nil => cases l <;> simp_all [alookup]
  | cons q t ih =>
    cases l with
    | nil => simp at hp
    | cons r s =>
      simp only [List.map_cons, List.cons.injEq, Prod.mk.injEq] at hp
      obtain ⟨⟨h1, h2⟩, htail⟩ := hp
      by_cases h : q.1 = k
      · rw [alookup_cons, alookup_cons, if_pos h, if_pos (h1 ▸ h)]
        simp [h2]
      · rw [alookup_cons, alookup_cons, if_neg h, if_neg (h1 ▸ h)]
        exact ih htail

theorem mem_keys_aerase {l : List (α × β)} {k x : α} :
    x ∈ (aerase l k).map Prod.fst ↔ x ∈ l.map Prod.fst ∧ x ≠ k := by
  unfold aerase
  constructor
  · intro hx
    obtain ⟨p, hp, rfl⟩ := List.mem_map.1 hx
    have hne : p.1 ≠ k := by simpa using List.of_mem_filter hp
    exact ⟨List.mem_map_of_mem _ (List.mem_of_mem_filter hp), hne⟩
  · rintro ⟨hx, hxk⟩
    obtain ⟨p, hp, rfl⟩ := List.mem_map.1 hx
    exact List.mem_map_of_mem _ (List.mem_filter_of_mem hp (by simpa using hxk))

theorem length_aerase_of_nodup {l : List (α × β)} {k : α}
    (hnd : (l.map Prod.fst).Nodup) (h : (alookup l k).isSome) :
    l.length = (aerase l k).length + 1 := by
  induction l with
  | nil => simp [alookup] at h
  | cons q l ih =>
    simp only [List.map_cons, List.nodup_cons] at hnd
    by_cases hq : q.1 = k
    · have hnone : alookup l k = none := by
        rw [alookup_eq_none]
        exact hq ▸ hnd.1
      have : aerase (q :: l) k = aerase l k := by
        simp only [aerase, List.filter_cons, hq]
        simp
      rw [this, aerase_of_absent hnone]
      simp
    · rw [alookup_cons, if_neg hq] at h
      have := ih hnd.2 h
      have hcons : aerase (q :: l) k = q :: aerase l k := by
        simp only [aerase, List.filter_cons]
        rw [if_pos (by simp [hq])]
      rw [hcons]
      simp only [List.length_cons, this]

theorem keys_nodup_aerase {l : List (α × β)} {k : α}
    (hnd : (l.map Prod.fst).Nodup) : ((aerase l k).map Prod.fst).Nodup := by
  have hsub : List.Sublist ((aerase l k).map Prod.fst) (l.map Prod.fst) :=
    List.Sublist.map Prod.fst (List.filter_sublist l)
  exact hsub.nodup hnd

end Assoc


/-! ## Frame lemmas: what load bookkeeping never touches -/

theorem map_nodesProj_value {l : List (String × Node)} {f : Node → Node}
    (hf : ∀ b, (f b).ID = b.ID ∧ (f b).MaxLoad = b.MaxLoad) :
    (l.map (fun p => (p.1, f p.2))).map (fun p => (p.1, p.2.ID, p.2.MaxLoad)) =
      l.map (fun p => (p.1, p.2.ID, p.2.MaxLoad)) := by
  rw [List.map_map]
  apply List.map_congr_left
  intro p _
  simp [(hf p.2).1, (hf p.2).2]

theorem aupdate_nodesProj {l : List (String × Node)} {k : String} {f : Node → Node}
    (hf : ∀ b, (f b).ID = b.ID ∧ (f b).MaxLoad = b.MaxLoad) :
    (aupdate l k f).map (fun p => (p.1, p.2.ID, p.2.MaxLoad)) =
      l.map (fun p => (p.1, p.2.ID, p.2.MaxLoad)) := by
  unfold aupdate
  rw [List.map_map]
  apply List.map_congr_left
  intro p _
  by_cases h : p.1 = k <;> simp [h, (hf p.2).1, (hf p.2).2]

theorem rebalanceStep_frame {h h' : HashRing} {k : String}
    (hs : rebalanceStep h k = some h') :
    frame h' = frame h ∧ h'.totalKeys = h.totalKeys := by
  unfold rebalanceStep at hs
  cases hg : getNodeForHash h (hashOf h k) with
  | none => rw [hg] at hs; simp at hs
  | some n =>
    rw [hg] at hs
    cases hl : alookup h.nodes n.ID with
    | none =>
      simp only [hl] at hs
      exact Option.noConfusion hs
    | some m =>
      simp only [hl, Option.some.injEq] at hs
      subst hs
      refine ⟨?_, rfl⟩
      unfold frame nodesProj
      simp only
      rw [aupdate_nodesProj (f := Node.IncrementLoad) (fun b => ⟨rfl, rfl⟩)]

theorem rebalanceGo_frame : ∀ (ks : List String) {h h' : HashRing},
    rebalanceGo h ks = some h' →
    frame h' = frame h ∧ h'.totalKeys = h.totalKeys := by
  intro ks
  induction ks with
  | nil =>
    intro h h' hs
    simp only [rebalanceGo, Option.some.injEq] at hs
    rw [hs]
    exact ⟨rfl, rfl⟩
  | cons k ks ih =>
    intro h h' hs
    unfold rebalanceGo at hs
    cases hstep : rebalanceStep h k with
    | none => rw [hstep] at hs; simp at hs
    | some h1 =>
      rw [hstep] at hs
      obtain ⟨hf1, ht1⟩ := ih hs
      obtain ⟨hf2, ht2⟩ := rebalanceStep_frame hstep
      exact ⟨hf1.trans hf2, ht1.trans ht2⟩

theorem rebalanceKeys_frame {h h' : HashRing}
    (hs : rebalanceKeys h = some h') :
    frame h' = frame h ∧ h'.totalKeys = h.totalKeys := by
  unfold rebalanceKeys at hs
  have hreset : frame { h with nodes := h.nodes.map (fun p => (p.1, p.2.ResetLoad))
                               keyAssignment := [] } = frame h := by
    unfold frame nodesProj
    simp only
    rw [map_nodesProj_value (f := Node.ResetLoad) (fun b => ⟨rfl, rfl⟩)]
  obtain ⟨hf, ht⟩ := rebalanceGo_frame _ hs
  exact ⟨hf.trans hreset, ht⟩

theorem frame_eq_fields {h h' : HashRing} (hf : frame h' = frame h) :
    h'.ring = h.ring ∧ h'.ringMap = h.ringMap ∧
    h'.virtualNodes = h.virtualNodes ∧
    h'.loadFactor = h.loadFactor ∧ h'.hashFn = h.hashFn ∧
    nodesProj h' = nodesProj h := by
  unfold frame at hf
  simp only [Prod.mk.injEq] at hf
  exact ⟨hf.1, hf.2.1, hf.2.2.1, hf.2.2.2.1, hf.2.2.2.2.1, hf.2.2.2.2.2⟩

theorem maxLoads_of_nodesProj {h h' : HashRing} (hp : nodesProj h' = nodesProj h) :
    maxLoads h' = maxLoads h := by
  have := congrArg (List.map (fun t : String × String × ℤ => t.2.2)) hp
  simpa [nodesProj, maxLoads, List.map_map, Function.comp] using this

theorem nodeKeys_of_nodesProj {h h' : HashRing} (hp : nodesProj h' = nodesProj h) :
    nodeKeys h' = nodeKeys h := by
  have := congrArg (List.map (fun t : String × String × ℤ => t.1)) hp
  simpa [nodesProj, nodeKeys, List.map_map, Function.comp] using this

theorem nodes_length_of_nodesProj {h h' : HashRing} (hp : nodesProj h' = nodesProj h) :
    h'.nodes.length = h.nodes.length := by
  have := congrArg List.length hp
  simpa [nodesProj] using this

theorem updateMaxLoads_maxLoads {h : HashRing} (hne : ¬ h.nodes.isEmpty) :
    maxLoads (updateMaxLoads h) = List.replicate h.nodes.length (computeMaxLoad h) := by
  unfold updateMaxLoads
  rw [if_neg hne]
  unfold maxLoads
  simp only [List.map_map]
  refine List.eq_replicate_iff.2 ⟨by simp, ?_⟩
  intro b hb
  obtain ⟨p, _, rfl⟩ := List.mem_map.1 hb
  rfl

theorem assignTo_frame (h : HashRing) (key nid : String) :
    frame (assignTo h key nid) = frame h := by
  unfold frame assignTo nodesProj
  simp only
  rw [aupdate_nodesProj (f := Node.IncrementLoad) (fun b => ⟨rfl, rfl⟩)]

theorem assignFresh_some {h : HashRing} {key : String} {start : ℕ}
    {s : HashRing × Except RErr Node}
    (hs : assignFresh h key start = some s) :
    ∃ (nid : String) (n : Node), s = (assignTo h key nid, .ok n.IncrementLoad) := by
  unfold assignFresh at hs
  cases hw : walkAux h start 0 h.ring.length with
  | panicked => rw [hw] at hs; simp at hs
  | found i nid n =>
    rw [hw] at hs
    simp only [Option.some.injEq] at hs
    exact ⟨nid, n, hs.symm⟩
  | exhausted =>
    rw [hw] at hs
    cases hr : h.ring[start]? with
    | none => rw [hr] at hs; simp at hs
    | some p =>
      rw [hr] at hs
      simp only at hs
      cases hn : alookup h.nodes ((alookup h.ringMap p).getD "") with
      | none =>
        simp only [hn] at hs
        exact Option.noConfusion hs
      | some n =>
        simp only [hn, Option.some.injEq] at hs
        exact ⟨_, n, hs.symm⟩

theorem assignFresh_frame {h : HashRing} {key : String} {start : ℕ}
    {s : HashRing × Except RErr Node}
    (hs : assignFresh h key start = some s) :
    frame s.1 = frame h ∧ s.1.totalKeys = h.totalKeys + 1 ∧
    ∃ n, s.2 = .ok n := by
  obtain ⟨nid, n, rfl⟩ := assignFresh_some hs
  exact ⟨assignTo_frame h key nid, rfl, n.IncrementLoad, rfl⟩

theorem frame_keyAssignment (h : HashRing) (l : List (String × String)) :
    frame { h with keyAssignment := l } = frame h := rfl

theorem boundedLoad_frame {h : HashRing} {key : String}
    {s : HashRing × Except RErr Node}
    (hs : GetNodeWithBoundedLoad h key = some s) : frame s.1 = frame h := by
  unfold GetNodeWithBoundedLoad at hs
  by_cases he : h.nodes.isEmpty
  · rw [if_pos he] at hs
    simp only [Option.some.injEq] at hs
    rw [← hs]
  · rw [if_neg he] at hs
    simp only at hs
    cases ha : alookup h.keyAssignment key with
    | none =>
      rw [ha] at hs
      exact (assignFresh_frame hs).1
    | some nid =>
      rw [ha] at hs
      cases hn : alookup h.nodes nid with
      | none =>
        simp only [hn] at hs
        exact ((assignFresh_frame hs).1).trans (frame_keyAssignment h _)
      | some n =>
        simp only [hn, Option.some.injEq] at hs
        rw [← hs]

theorem removeKey_frame (h : HashRing) (key : String) :
    frame (RemoveKey h key).1 = frame h := by
  unfold RemoveKey
  cases ha : alookup h.keyAssignment key with
  | none => rfl
  | some nid =>
    simp only
    cases hn : alookup h.nodes nid with
    | none => rfl
    | some n =>
      simp only
      unfold frame nodesProj
      simp only
      rw [aupdate_nodesProj (f := Node.DecrementLoad)
        (fun b => ⟨by unfold Node.DecrementLoad; split <;> rfl,
                   by unfold Node.DecrementLoad; split <;> rfl⟩)]

theorem lf54_eq : lf54 = (5 : ℚ) / 4 := by
  show Rat.mk' 5 4 _ _ = (5 : ℚ) / 4
  rw [Rat.mk'_eq_divInt, Rat.divInt_eq_div]
  norm_num

theorem lf65_eq : lf65 = (6 : ℚ) / 5 := by
  show Rat.mk' 6 5 _ _ = (6 : ℚ) / 5
  rw [Rat.mk'_eq_divInt, Rat.divInt_eq_div]
  norm_num

/-! ## Claim theorems -/

/-- C10: constructing a ring with a non-positive virtual-node count or
non-positive load factor never fails; the constructor substitutes the
defaults (150 virtual nodes, load factor 1.25) and every constructed ring
has `virtualNodes > 0` and `loadFactor > 0` (and positive configured values
are taken as given). -/
theorem c10_constructor (hf : String → ℕ) (config : Config) :
    0 < (NewHashRing hf config).virtualNodes ∧
    0 < (NewHashRing hf config).loadFactor ∧
    (config.VirtualNodes ≤ 0 → (NewHashRing hf config).virtualNodes = 150) ∧
    (config.LoadFactor ≤ 0 → (NewHashRing hf config).loadFactor = 5 / 4) ∧
    (0 < config.VirtualNodes →
      (NewHashRing hf config).virtualNodes = config.VirtualNodes) ∧
    (0 < config.LoadFactor →
      (NewHashRing hf config).loadFactor = config.LoadFactor) := by
  unfold NewHashRing
  simp only
  by_cases hv : config.VirtualNodes ≤ 0 <;> by_cases hl : config.LoadFactor ≤ 0
  · rw [if_pos hv, if_pos hl]
    refine ⟨by norm_num, by norm_num, fun _ => rfl, fun _ => rfl, ?_, ?_⟩
    · intro hc; exact absurd hc (not_lt.2 hv)
    · intro hc; exact absurd hc (not_lt.2 hl)
  · rw [if_pos hv, if_neg hl]
    refine ⟨by norm_num, not_le.1 hl, fun _ => rfl, ?_, ?_, fun _ => rfl⟩
    · intro hc; exact absurd hc hl
    · intro hc; exact absurd hc (not_lt.2 hv)
  · rw [if_neg hv, if_pos hl]
    refine ⟨not_le.1 hv, by norm_num, ?_, fun _ => rfl, fun _ => rfl, ?_⟩
    · intro hc; exact absurd hc hv
    · intro hc; exact absurd hc (not_lt.2 hl)
  · rw [if_neg hv, if_neg hl]
    refine ⟨not_le.1 hv, not_le.1 hl, ?_, ?_, fun _ => rfl, fun _ => rfl⟩
    · intro hc; exact absurd hc hv
    · intro hc; exact absurd hc hl

/-- Witness for C10 at a concrete non-positive configuration. -/
theorem c10_constructor_witness :
    (NewHashRing cexHash
      { VirtualNodes := 0, LoadFactor := ⟨0, 1, by decide, by decide⟩ }).virtualNodes = 150 ∧
    (NewHashRing cexHash
      { VirtualNodes := 0, LoadFactor := ⟨0, 1, by decide, by decide⟩ }).loadFactor = 5 / 4 :=
  ⟨(c10_constructor cexHash _).2.2.1 (by decide),
   (c10_constructor cexHash _).2.2.2.1 (by decide)⟩

/-- C5: `AssignKey` is idempotent for a key whose stored assignment points to
a node that is still present: the call returns that node and leaves the whole
state unchanged. -/
theorem c5_idempotent (h : HashRing) (key nid : String) (n : Node)
    (ha : alookup h.keyAssignment key = some nid)
    (hn : alookup h.nodes nid = some n) :
    GetNodeWithBoundedLoad h key = some (h, .ok n) := by
  have hne : ¬ h.nodes.isEmpty = true := by
    cases hl : h.nodes with
    | nil => rw [hl] at hn; simp [alookup] at hn
    | cons a l => simp [hl]
  unfold GetNodeWithBoundedLoad
  rw [if_neg hne]
  simp only [ha, hn]

/-- Witness for C5 at a one-node ring holding the key `x`. -/
theorem c5_idempotent_witness :
    GetNodeWithBoundedLoad c5H "x" =
      some (c5H, .ok ⟨"A", "hostA", 1, 1, []⟩) :=
  c5_idempotent c5H "x" "A" ⟨"A", "hostA", 1, 1, []⟩ (by decide) (by decide)

theorem addNode_error {h s : HashRing} {e : RErr} {node : Node}
    (hs : AddNode h node = some (s, .error e)) :
    (alookup h.nodes node.ID).isSome ∧ e = .alreadyExists ∧ s = h := by
  unfold AddNode at hs
  by_cases hx : (alookup h.nodes node.ID).isSome
  · rw [if_pos hx] at hs
    simp only [Option.some.injEq, Prod.mk.injEq] at hs
    exact ⟨hx, (Except.error.inj hs.2).symm, hs.1.symm⟩
  · exfalso
    rw [if_neg hx] at hs
    simp only [] at hs
    rw [Option.map_eq_some'] at hs
    obtain ⟨h3, _, heq⟩ := hs
    have := congrArg Prod.snd heq
    simp at this

theorem removeNode_error {h s : HashRing} {e : RErr} {id : String}
    (hs : RemoveNode h id = some (s, .error e)) :
    alookup h.nodes id = none ∧ e = .notFound ∧ s = h := by
  unfold RemoveNode at hs
  cases hn : alookup h.nodes id with
  | none =>
    simp only [hn, Option.some.injEq, Prod.mk.injEq] at hs
    exact ⟨rfl, (Except.error.inj hs.2).symm, hs.1.symm⟩
  | some nd =>
    exfalso
    simp only [hn] at hs
    rw [Option.map_eq_some'] at hs
    obtain ⟨h3, _, heq⟩ := hs
    have := congrArg Prod.snd heq
    simp at this

theorem boundedLoad_error {h s : HashRing} {e : RErr} {key : String}
    (hs : GetNodeWithBoundedLoad h key = some (s, .error e)) :
    h.nodes.isEmpty = true ∧ e = .noNodes ∧ s = h := by
  unfold GetNodeWithBoundedLoad at hs
  by_cases he : h.nodes.isEmpty
  · rw [if_pos he] at hs
    simp only [Option.some.injEq, Prod.mk.injEq] at hs
    exact ⟨he, (Except.error.inj hs.2).symm, hs.1.symm⟩
  · exfalso
    rw [if_neg he] at hs
    simp only [] at hs
    cases ha : alookup h.keyAssignment key with
    | none =>
      simp only [ha] at hs
      obtain ⟨nid, n, heq⟩ := assignFresh_some hs
      have := congrArg Prod.snd heq
      simp at this
    | some nid =>
      simp only [ha] at hs
      cases hn : alookup h.nodes nid with
      | none =>
        simp only [hn] at hs
        obtain ⟨nid2, n2, heq⟩ := assignFresh_some hs
        have := congrArg Prod.snd heq
        simp at this
      | some n =>
        simp only [hn, Option.some.injEq, Prod.mk.injEq] at hs
        exact absurd hs.2 (by simp)

/-- C6: the error conditions are exact: `AddNode` fails with `AlreadyExists`
iff the id is present (and that is its only failure), `RemoveNode` fails with
`NotFound` iff the id is absent (its only failure), `GetNode` and
`GetNodeWithBoundedLoad` fail with `Empty` iff no node is present (their only
failure), and every failure leaves the state unchanged. -/
theorem c6_errors (h : HashRing) (node : Node) (id key : String) :
    (AddNode h node = some (h, .error .alreadyExists) ↔
      (alookup h.nodes node.ID).isSome) ∧
    (∀ s e, AddNode h node = some (s, .error e) → e = .alreadyExists ∧ s = h) ∧
    (RemoveNode h id = some (h, .error .notFound) ↔ alookup h.nodes id = none) ∧
    (∀ s e, RemoveNode h id = some (s, .error e) → e = .notFound ∧ s = h) ∧
    (GetNode h key = .error .noNodes ↔ h.nodes = []) ∧
    (∀ e, GetNode h key = .error e → e = .noNodes) ∧
    (GetNodeWithBoundedLoad h key = some (h, .error .noNodes) ↔ h.nodes = []) ∧
    (∀ s e, GetNodeWithBoundedLoad h key = some (s, .error e) →
      e = .noNodes ∧ s = h) := by
  refine ⟨⟨fun hs => (addNode_error hs).1, fun hx => ?_⟩,
    fun s e hs => ((addNode_error hs).2),
    ⟨fun hs => (removeNode_error hs).1, fun hn => ?_⟩,
    fun s e hs => ((removeNode_error hs).2),
    ⟨fun hs => ?_, fun hnil => ?_⟩, fun e hs => ?_,
    ⟨fun hs => List.isEmpty_iff.1 (boundedLoad_error hs).1, fun hnil => ?_⟩,
    fun s e hs => ((boundedLoad_error hs).2)⟩
  · unfold AddNode
    rw [if_pos hx]
  · unfold RemoveNode
    rw [hn]
  · unfold GetNode at hs
    by_cases he : h.nodes.isEmpty
    · exact List.isEmpty_iff.1 he
    · rw [if_neg he] at hs
      exact absurd hs (by simp)
  · unfold GetNode
    rw [if_pos (by simp [hnil])]
  · unfold GetNode at hs
    by_cases he : h.nodes.isEmpty
    · rw [if_pos he] at hs
      exact (Except.error.inj hs).symm
    · rw [if_neg he] at hs
      exact absurd hs (by simp)
  · unfold GetNodeWithBoundedLoad
    rw [if_pos (by simp [hnil])]

/-- Witness for C6 at concrete rings: a duplicate add fails with
`AlreadyExists`, removing an absent id fails with `NotFound`, and lookups on
the empty ring fail with `Empty`. -/
theorem c6_errors_witness :
    AddNode c5H ⟨"A", "other", 0, 0, []⟩ = some (c5H, .error .alreadyExists) ∧
    RemoveNode c5H "Z" = some (c5H, .error .notFound) ∧
    GetNode baseRing "x" = .error .noNodes ∧
    GetNodeWithBoundedLoad baseRing "x" = some (baseRing, .error .noNodes) :=
  ⟨(c6_errors c5H ⟨"A", "other", 0, 0, []⟩ "Z" "x").1.2 (by decide),
   (c6_errors c5H ⟨"A", "other", 0, 0, []⟩ "Z" "x").2.2.1.2 (by decide),
   (c6_errors baseRing ⟨"A", "other", 0, 0, []⟩ "Z" "x").2.2.2.2.1.2 (by decide),
   (c6_errors baseRing ⟨"A", "other", 0, 0, []⟩ "Z" "x").2.2.2.2.2.2.1.2 (by decide)⟩

/-- C8: `RemoveKey` (the spec's `ReleaseKey`) fails with `NotFound` iff the
key has no recorded assignment, and otherwise (when the recorded owner is
still tracked) decrements the owner's load — never below `0` — removes the
assignment-table entry and decrements the total key count. -/
theorem c8_release (h : HashRing) (key nid : String) (n : Node) :
    (RemoveKey h key = (h, .error .notFound) ↔
      alookup h.keyAssignment key = none) ∧
    (alookup h.keyAssignment key = some nid → alookup h.nodes nid = some n →
      RemoveKey h key =
        ({ h with nodes := aupdate h.nodes nid Node.DecrementLoad,
                  keyAssignment := aerase h.keyAssignment key,
                  totalKeys := h.totalKeys - 1 }, .ok ()) ∧
      alookup (aupdate h.nodes nid Node.DecrementLoad) nid =
        some n.DecrementLoad ∧
      n.DecrementLoad.Load = (if 0 < n.Load then n.Load - 1 else n.Load) ∧
      (0 ≤ n.Load → 0 ≤ n.DecrementLoad.Load) ∧
      alookup (aerase h.keyAssignment key) key = none) := by
  constructor
  · constructor
    · intro hs
      cases ha : alookup h.keyAssignment key with
      | none => rfl
      | some nid' =>
        exfalso
        unfold RemoveKey at hs
        simp only [ha] at hs
        cases hn : alookup h.nodes nid' with
        | none =>
          simp only [hn] at hs
          have := congrArg Prod.snd hs
          simp at this
        | some nd =>
          simp only [hn] at hs
          have := congrArg Prod.snd hs
          simp at this
    · intro ha
      unfold RemoveKey
      rw [ha]
  · intro ha hn
    refine ⟨?_, ?_, ?_, ?_, ?_⟩
    · unfold RemoveKey
      rw [ha]
      simp only [hn]
    · rw [alookup_aupdate, if_pos rfl, hn]
      rfl
    · unfold Node.DecrementLoad
      split <;> rfl
    · intro h0
      unfold Node.DecrementLoad
      split
      next hlt =>
        show (0 : ℤ) ≤ n.Load - 1
        omega
      next => exact h0
    · rw [alookup_aerase, if_pos rfl]

/-- Witness for C8 at a one-node ring holding key `x`: the release
decrements the load to `0`, drops the entry and the counter. -/
theorem c8_release_witness :
    RemoveKey c5H "x" =
      ({ c5H with nodes := aupdate c5H.nodes "A" Node.DecrementLoad,
                  keyAssignment := aerase c5H.keyAssignment "x",
                  totalKeys := c5H.totalKeys - 1 }, .ok ()) ∧
    alookup (aerase c5H.keyAssignment "x") "x" = none :=
  ⟨(((c8_release c5H "x" "A" ⟨"A", "hostA", 1, 1, []⟩).2) (by decide) (by decide)).1,
   (((c8_release c5H "x" "A" ⟨"A", "hostA", 1, 1, []⟩).2) (by decide) (by decide)).2.2.2.2⟩

/-- C3 is a code bug: run `AddNode A; AddNode B; AssignKey k; RemoveNode B`
(the assigned key `k` sits on `B`).  Afterwards one key is still assigned and
the loads sum to `1`, but `Stats` reports `total_keys = 0`: `RemoveNode`
subtracted the removed node's load even though `rebalanceKeys` reassigned its
key to a surviving node.  The claim's equality with the `Stats` counter fails
while the sum-of-loads/assignment-table agreement holds. -/
theorem c3_code_bug :
    c3s4.map sumLoads = some 1 ∧
    c3s4.map (fun h => h.keyAssignment.length) = some 1 ∧
    c3s4.map (fun h => (Stats h).totalKeys) = some 0 ∧
    (c3s3.bind (fun h => (RemoveNode h "B").map (fun s => s.2.toOption))) =
      some (some ()) ∧
    (1 : ℤ) ≠ 0 :=
  ⟨by decide, by decide, by decide, by decide, by decide⟩

/-- C1 fails on the code: (a) two assignments on a one-node ring leave
`MaxLoad = 1` although the claimed recomputation after a total-assignment
change would give `ceil(2/1 · 1.25) = 3`; (b) with load factor 1.2, a
membership change recomputes `MaxLoad` to `int(1/1 · 1.2 + 0.5) = 1` although
the claimed formula gives `ceil(1/1 · 1.2) = 2`. -/
theorem c1_counterexample :
    (c1runA.map maxLoads = some [1] ∧
     c1runA.map (fun h => (Stats h).totalKeys) = some 2 ∧
     c1runA.map (fun h => h.nodes.length) = some 1 ∧
     (⌈((2 : ℚ) / 1) * lf54⌉ : ℤ) = 3 ∧ (1 : ℤ) ≠ 3) ∧
    (c1runB.map maxLoads = some [1] ∧
     c1runB.map (fun h => (Stats h).totalKeys) = some 1 ∧
     c1runB.map (fun h => h.nodes.length) = some 1 ∧
     (⌈((1 : ℚ) / 1) * lf65⌉ : ℤ) = 2 ∧ (1 : ℤ) ≠ 2) := by
  refine ⟨⟨by decide, by decide, by decide, ?_, by decide⟩,
    ⟨by decide, by decide, by decide, ?_, by decide⟩⟩
  · rw [lf54_eq, Int.ceil_eq_iff]
    norm_num
  · rw [lf65_eq, Int.ceil_eq_iff]
    norm_num

theorem updateMaxLoads_length (h : HashRing) :
    (updateMaxLoads h).nodes.length = h.nodes.length := by
  unfold updateMaxLoads
  split
  · rfl
  · simp

theorem length_ainsert_of_absent {α β : Type} [DecidableEq α]
    {l : List (α × β)} {k : α} (hk : alookup l k = none) (v : β) :
    (ainsert l k v).length = l.length + 1 := by
  unfold ainsert
  rw [aerase_of_absent hk]
  simp

theorem rebalance_maxLoads_replicate {h2 : HashRing} {M : ℤ}
    (hml : maxLoads h2 = List.replicate h2.nodes.length M) :
    ((rebalanceKeys h2).map (fun h3 => (h3, Except.ok ()))).map
        (fun s : HashRing × Except RErr Unit => maxLoads s.1) =
      ((rebalanceKeys h2).map (fun h3 => (h3, Except.ok ()))).map
        (fun s : HashRing × Except RErr Unit =>
          List.replicate s.1.nodes.length M) := by
  cases hr : rebalanceKeys h2 with
  | none => rfl
  | some h3 =>
    obtain ⟨hf, _⟩ := rebalanceKeys_frame hr
    obtain ⟨_, _, _, _, _, hproj⟩ := frame_eq_fields hf
    simp only [Option.map_some']
    rw [maxLoads_of_nodesProj hproj, nodes_length_of_nodesProj hproj, hml]

/-- C1 (amended): the ring-wide maximum load is recomputed only on membership
changes.  A successful `AddNode`/`RemoveNode` stores, in every node's
`MaxLoad`, the value `mkMax totalKeys liveNodes loadFactor`
(`int(mean·loadFactor + 0.5)` — round half up, not ceiling — with minimum 1,
the counts taken just after the membership update).  Assignment and release
operations never touch any `MaxLoad`. -/
theorem c1_amended :
    (∀ (h : HashRing) (node : Node), alookup h.nodes node.ID = none →
      (AddNode h node).map (fun s => maxLoads s.1) =
        (AddNode h node).map (fun s =>
          List.replicate s.1.nodes.length
            (mkMax h.totalKeys (h.nodes.length + 1) h.loadFactor))) ∧
    (∀ (h : HashRing) (id : String) (node : Node),
      alookup h.nodes id = some node → (nodeKeys h).Nodup →
      (RemoveNode h id).map (fun s => maxLoads s.1) =
        (RemoveNode h id).map (fun s =>
          List.replicate s.1.nodes.length
            (mkMax (h.totalKeys - node.Load) (h.nodes.length - 1) h.loadFactor))) ∧
    (∀ (h : HashRing) (key : String) (s : HashRing × Except RErr Node),
      GetNodeWithBoundedLoad h key = some s → nodesProj s.1 = nodesProj h) ∧
    (∀ (h : HashRing) (key : String), nodesProj (RemoveKey h key).1 = nodesProj h) := by
  refine ⟨?_, ?_, ?_, ?_⟩
  · intro h node hnone
    unfold AddNode
    rw [if_neg (by simp [hnone])]
    simp only []
    refine rebalance_maxLoads_replicate ?_
    have hne : ¬ (ainsert h.nodes node.ID node).isEmpty = true := by
      unfold ainsert
      simp
    rw [updateMaxLoads_maxLoads hne, updateMaxLoads_length]
    congr 1
    show mkMax h.totalKeys (ainsert h.nodes node.ID node).length h.loadFactor =
      mkMax h.totalKeys (h.nodes.length + 1) h.loadFactor
    rw [length_ainsert_of_absent hnone]
  · intro h id node hsome hnodup
    unfold RemoveNode
    simp only [hsome]
    refine rebalance_maxLoads_replicate ?_
    have hlen : (aerase h.nodes id).length = h.nodes.length - 1 := by
      have := length_aerase_of_nodup hnodup (by rw [hsome]; rfl)
      omega
    by_cases hE : (aerase h.nodes id).isEmpty
    · have hnil : aerase h.nodes id = [] := List.isEmpty_iff.1 hE
      rw [updateMaxLoads_length]
      unfold updateMaxLoads
      rw [if_pos hE]
      simp only [maxLoads, hnil]
      simp
    · rw [updateMaxLoads_maxLoads hE, updateMaxLoads_length]
      congr 1
      show mkMax (h.totalKeys - node.Load) (aerase h.nodes id).length h.loadFactor =
        mkMax (h.totalKeys - node.Load) (h.nodes.length - 1) h.loadFactor
      rw [hlen]
  · intro h key s hs
    exact (frame_eq_fields (boundedLoad_frame hs)).2.2.2.2.2
  · intro h key
    exact (frame_eq_fields (removeKey_frame h key)).2.2.2.2.2

/-- Witness for C1 (amended): adding the first node to the empty ring sets
its `MaxLoad` to `mkMax 0 1 (5/4) = 1`. -/
theorem c1_amended_witness :
    (AddNode baseRing nodeA).map (fun s => maxLoads s.1) =
      (AddNode baseRing nodeA).map (fun s =>
        List.replicate s.1.nodes.length
          (mkMax baseRing.totalKeys (baseRing.nodes.length + 1) baseRing.loadFactor)) ∧
    mkMax baseRing.totalKeys (baseRing.nodes.length + 1) baseRing.loadFactor = 1 :=
  ⟨c1_amended.1 baseRing nodeA (by decide), by decide⟩

theorem searchIdx_lt {ring : List ℕ} (hne : ring ≠ []) (v : ℕ) :
    searchIdx ring v < ring.length := by
  unfold searchIdx
  cases hf : ring.findIdx? (fun x => decide (v ≤ x)) with
  | none => exact List.length_pos.2 hne
  | some i =>
    obtain ⟨hlt, -, -⟩ := List.findIdx?_eq_some_iff_getElem.1 hf
    exact hlt

theorem walkAux_exhausted {h : HashRing} {start : ℕ} (hne : h.ring ≠ [])
    (hcap : ∀ p ∈ h.ring,
      (alookup h.nodes ((alookup h.ringMap p).getD "")).map Node.CanAcceptKey =
        some false) :
    ∀ (r i : ℕ), walkAux h start i r = .exhausted := by
  intro r
  induction r with
  | zero => intro i; rfl
  | succ r ih =>
    intro i
    have hpos : 0 < h.ring.length := List.length_pos.2 hne
    have hidx : (start + i) % h.ring.length < h.ring.length := Nat.mod_lt _ hpos
    have hp : h.ring[(start + i) % h.ring.length]? =
        some (h.ring.get ⟨(start + i) % h.ring.length, hidx⟩) := by
      rw [List.get_eq_getElem]
      exact List.getElem?_eq_getElem hidx
    have hmem : h.ring.get ⟨(start + i) % h.ring.length, hidx⟩ ∈ h.ring := by
      rw [List.get_eq_getElem]
      exact List.getElem_mem hidx
    have hcan := hcap _ hmem
    show walkAux h start i (r + 1) = WalkRes.exhausted
    unfold walkAux
    simp only []
    rw [hp]
    simp only
    cases hn : alookup h.nodes
        ((alookup h.ringMap
          (h.ring.get ⟨(start + i) % h.ring.length, hidx⟩)).getD "") with
    | none => rw [hn] at hcan; simp at hcan
    | some n =>
      rw [hn] at hcan
      simp only [Option.map_some', Option.some.injEq] at hcan
      simp only [hcan, Bool.false_eq_true, if_false]
      exact ih (i + 1)

/-- C4: when no node can accept (`CanAcceptKey` fails everywhere), the
bounded-load walk degrades gracefully: the key is assigned to the node owning
the originally hashed position, that node's load is pushed past its `MaxLoad`
cap, the assignment is recorded, the total count incremented, and the call
returns the node successfully rather than an error. -/
theorem c4_fallback (h : HashRing) (key : String)
    (hne : h.ring ≠ [])
    (hnodes : ¬ h.nodes.isEmpty = true)
    (hfree : alookup h.keyAssignment key = none)
    (hcap : ∀ p ∈ h.ring,
      (alookup h.nodes ((alookup h.ringMap p).getD "")).map Node.CanAcceptKey =
        some false) :
    ∃ (p : ℕ) (n : Node),
      h.ring[searchIdx h.ring (hashOf h key)]? = some p ∧
      alookup h.nodes ((alookup h.ringMap p).getD "") = some n ∧
      GetNodeWithBoundedLoad h key =
        some (assignTo h key ((alookup h.ringMap p).getD ""), .ok n.IncrementLoad) ∧
      n.MaxLoad ≠ 0 ∧ n.MaxLoad < n.IncrementLoad.Load ∧
      alookup (assignTo h key ((alookup h.ringMap p).getD "")).keyAssignment key =
        some ((alookup h.ringMap p).getD "") ∧
      (assignTo h key ((alookup h.ringMap p).getD "")).totalKeys =
        h.totalKeys + 1 := by
  have hstart : searchIdx h.ring (hashOf h key) < h.ring.length := searchIdx_lt hne _
  have hp : h.ring[searchIdx h.ring (hashOf h key)]? =
      some (h.ring.get ⟨searchIdx h.ring (hashOf h key), hstart⟩) := by
    rw [List.get_eq_getElem]
    exact List.getElem?_eq_getElem hstart
  set p := h.ring.get ⟨searchIdx h.ring (hashOf h key), hstart⟩ with hpdef
  have hmem : p ∈ h.ring := by
    rw [hpdef, List.get_eq_getElem]
    exact List.getElem_mem hstart
  have hcan := hcap p hmem
  cases hn : alookup h.nodes ((alookup h.ringMap p).getD "") with
  | none => rw [hn] at hcan; simp at hcan
  | some n =>
    rw [hn] at hcan
    simp only [Option.map_some', Option.some.injEq] at hcan
    refine ⟨p, n, hp, hn, ?_, ?_, ?_, ?_, rfl⟩
    · unfold GetNodeWithBoundedLoad
      rw [if_neg hnodes]
      simp only [hfree]
      unfold assignFresh
      rw [walkAux_exhausted hne hcap _ _]
      simp only [hp]
      rw [hn]
    · intro h0
      unfold Node.CanAcceptKey at hcan
      rw [if_pos h0] at hcan
      exact Bool.noConfusion hcan
    · unfold Node.CanAcceptKey at hcan
      by_cases h0 : n.MaxLoad = 0
      · rw [if_pos h0] at hcan
        exact absurd hcan (by simp)
      · rw [if_neg h0] at hcan
        simp only [decide_eq_false_iff_not, not_lt] at hcan
        show n.MaxLoad < n.Load + 1
        omega
    · unfold assignTo
      simp only
      rw [alookup_ainsert, if_pos rfl]

/-- Witness for C4: both nodes at capacity (`Load = MaxLoad = 1`), assigning
the fresh key `k`; the originally hashed node `B` takes it anyway. -/
theorem c4_fallback_witness :
    ∃ (p : ℕ) (n : Node),
      c4H.ring[searchIdx c4H.ring (hashOf c4H "k")]? = some p ∧
      alookup c4H.nodes ((alookup c4H.ringMap p).getD "") = some n ∧
      GetNodeWithBoundedLoad c4H "k" =
        some (assignTo c4H "k" ((alookup c4H.ringMap p).getD ""), .ok n.IncrementLoad) ∧
      n.MaxLoad ≠ 0 ∧ n.MaxLoad < n.IncrementLoad.Load ∧
      alookup (assignTo c4H "k" ((alookup c4H.ringMap p).getD "")).keyAssignment "k" =
        some ((alookup c4H.ringMap p).getD "") ∧
      (assignTo c4H "k" ((alookup c4H.ringMap p).getD "")).totalKeys =
        c4H.totalKeys + 1 :=
  c4_fallback c4H "k" (by decide) (by decide) (by decide) (by decide)

/-- C7: on a sorted non-empty ring, the lookup step resolves a position to
the owner of the first (least) ring entry `≥ position` — every earlier entry
is `< position`, and every entry `≥ position` is `≥` the chosen one — and
when the position exceeds the largest entry (exactly the case in which no
entry is `≥ position`), it wraps to index `0`, the owner of the first entry. -/
theorem c7_lookup (h : HashRing) (pos : ℕ)
    (hsort : h.ring.Pairwise (· ≤ ·)) (hne : h.ring ≠ []) :
    ((∃ x ∈ h.ring, pos ≤ x) →
      ∃ i t, searchIdx h.ring pos = i ∧ h.ring[i]? = some t ∧ pos ≤ t ∧
        (∀ x ∈ h.ring, pos ≤ x → t ≤ x) ∧
        (∀ j, j < i → ∀ u, h.ring[j]? = some u → u < pos) ∧
        getNodeForHash h pos =
          alookup h.nodes ((alookup h.ringMap t).getD "")) ∧
    ((∀ x ∈ h.ring, x < pos) →
      searchIdx h.ring pos = 0 ∧
      getNodeForHash h pos =
        alookup h.nodes ((alookup h.ringMap (h.ring.head hne)).getD "")) ∧
    ((∀ x ∈ h.ring, x < pos) ↔ h.ring.getLast hne < pos) := by
  have hpair := List.pairwise_iff_getElem.1 hsort
  refine ⟨?_, ?_, ?_, ?_⟩
  · intro hx
    obtain ⟨x, hxm, hxle⟩ := hx
    have hex : ∃ y, y ∈ h.ring ∧ decide (pos ≤ y) = true := ⟨x, hxm, by simpa⟩
    have hf := List.findIdx?_eq_some_of_exists (p := fun y => decide (pos ≤ y)) hex
    obtain ⟨hlt, hpi, hprev⟩ := List.findIdx?_eq_some_iff_getElem.1 hf
    set i := h.ring.findIdx (fun y => decide (pos ≤ y)) with hidef
    have hsi : searchIdx h.ring pos = i := by
      unfold searchIdx
      rw [hf]
    refine ⟨i, h.ring[i], hsi, List.getElem?_eq_getElem hlt, by simpa using hpi,
      ?_, ?_, ?_⟩
    · intro y hym hyle
      obtain ⟨j, hj, rfl⟩ := List.mem_iff_getElem.1 hym
      rcases Nat.lt_trichotomy j i with hji | hji | hji
      · exact absurd hyle (by simpa using hprev j hji)
      · subst hji
        exact le_refl _
      · exact hpair i j hlt hj hji
    · intro j hji u hu
      have hjlt : j < h.ring.length := lt_trans hji hlt
      rw [List.getElem?_eq_getElem hjlt] at hu
      cases hu
      have := hprev j hji
      simpa using this
    · unfold getNodeForHash
      rw [hsi, List.getElem?_eq_getElem hlt]
  · intro hall
    have hf : h.ring.findIdx? (fun y => decide (pos ≤ y)) = none := by
      rw [List.findIdx?_eq_none_iff]
      intro y hym
      simpa using not_le.2 (hall y hym)
    have hsi : searchIdx h.ring pos = 0 := by
      unfold searchIdx
      rw [hf]
    refine ⟨hsi, ?_⟩
    unfold getNodeForHash
    rw [hsi]
    have h0 : h.ring[0]? = some (h.ring.head hne) := by
      rw [← List.head?_eq_getElem?, List.head?_eq_head]
    rw [h0]
  · intro hall
    exact hall _ (List.getLast_mem hne)
  · intro hlast x hxm
    obtain ⟨j, hj, rfl⟩ := List.mem_iff_getElem.1 hxm
    have hlen : 0 < h.ring.length := List.length_pos.2 hne
    have hlasteq := List.getLast_eq_getElem h.ring hne
    rcases Nat.lt_or_ge j (h.ring.length - 1) with hjl | hjl
    · have := hpair j (h.ring.length - 1) hj (by omega) hjl
      rw [← hlasteq] at this
      omega
    · have : j = h.ring.length - 1 := by omega
      subst this
      rw [← hlasteq]
      exact hlast

/-- Witness for C7: position 150 on the sorted ring `[100, 200]` resolves to
entry 200 (the first entry `≥ 150`). -/
theorem c7_lookup_witness :
    ∃ i t, searchIdx c4H.ring 150 = i ∧ c4H.ring[i]? = some t ∧ 150 ≤ t ∧
      (∀ x ∈ c4H.ring, 150 ≤ x → t ≤ x) ∧
      (∀ j, j < i → ∀ u, c4H.ring[j]? = some u → u < 150) ∧
      getNodeForHash c4H 150 =
        alookup c4H.nodes ((alookup c4H.ringMap t).getD "") :=
  (c7_lookup c4H 150 (by decide) (by decide)).1 ⟨200, by decide, by decide⟩

theorem alookup_isSome_iff {α β : Type} [DecidableEq α]
    {l : List (α × β)} {k : α} :
    (alookup l k).isSome = true ↔ k ∈ l.map Prod.fst := by
  constructor
  · intro hs
    by_contra hmem
    rw [alookup_eq_none.2 hmem] at hs
    simp at hs
  · intro hmem
    cases ho : alookup l k with
    | some v => rfl
    | none => exact absurd hmem (alookup_eq_none.1 ho)

theorem getNodeForHash_congr {h h' : HashRing}
    (hp : nodesProj h' = nodesProj h) (hr : h'.ring = h.ring)
    (hm : h'.ringMap = h.ringMap) (hv : ℕ) :
    (getNodeForHash h' hv).map Node.ID = (getNodeForHash h hv).map Node.ID := by
  unfold getNodeForHash
  rw [hr, hm]
  cases h.ring[searchIdx h.ring hv]? with
  | none => rfl
  | some p =>
    simp only
    have hproj := alookup_map_proj (g := fun b : Node => (b.ID, b.MaxLoad))
      (by
        have h1 := congrArg (List.map (fun t : String × String × ℤ => (t.1, t.2))) hp
        simpa [nodesProj, List.map_map, Function.comp] using hp)
      ((alookup h.ringMap p).getD "")
    have := congrArg (Option.map Prod.fst) hproj
    simpa [Option.map_map, Function.comp] using this

theorem getNodeForHash_isSome_congr {h h' : HashRing}
    (hp : nodesProj h' = nodesProj h) (hr : h'.ring = h.ring)
    (hm : h'.ringMap = h.ringMap) (hv : ℕ) :
    (getNodeForHash h' hv).isSome = (getNodeForHash h hv).isSome := by
  have := congrArg Option.isSome (getNodeForHash_congr hp hr hm hv)
  simpa using this

theorem ownerD_congr {h h' : HashRing}
    (hp : nodesProj h' = nodesProj h) (hr : h'.ring = h.ring)
    (hm : h'.ringMap = h.ringMap) (hf : h'.hashFn = h.hashFn) (k : String) :
    ownerD h' k = ownerD h k := by
  unfold ownerD hashOf
  rw [hf]
  rw [getNodeForHash_congr hp hr hm]

theorem rebalanceGo_spec : ∀ (ks : List String) (h : HashRing),
    ks.Nodup →
    (∀ k ∈ ks, k ∉ h.keyAssignment.map Prod.fst) →
    (∀ k ∈ ks, ∃ n, getNodeForHash h (hashOf h k) = some n ∧
      (alookup h.nodes n.ID).isSome) →
    ∃ h', rebalanceGo h ks = some h' ∧
      h'.keyAssignment = h.keyAssignment ++ ks.map (fun k => (k, ownerD h k)) ∧
      (∀ id, loadOf h' id = loadOf h id +
        (ks.countP (fun k => decide (ownerD h k = id)) : ℤ)) ∧
      frame h' = frame h ∧ h'.totalKeys = h.totalKeys := by
  intro ks
  induction ks with
  | nil =>
    intro h _ _ _
    exact ⟨h, rfl, by simp, fun id => by simp, rfl, rfl⟩
  | cons k ks ih =>
    intro h hnd hfresh hder
    obtain ⟨n, hg, hsome⟩ := hder k (List.mem_cons_self k ks)
    obtain ⟨m, hm⟩ := Option.isSome_iff_exists.1 hsome
    have hstep : rebalanceStep h k =
        some { h with nodes := aupdate h.nodes n.ID Node.IncrementLoad
                      keyAssignment := ainsert h.keyAssignment k n.ID } := by
      unfold rebalanceStep
      rw [hg]
      simp only [hm]
    set h1 : HashRing :=
      { h with nodes := aupdate h.nodes n.ID Node.IncrementLoad
               keyAssignment := ainsert h.keyAssignment k n.ID } with h1def
    have hproj1 : nodesProj h1 = nodesProj h := by
      unfold nodesProj
      exact aupdate_nodesProj (f := Node.IncrementLoad) (fun b => ⟨rfl, rfl⟩)
    have howner : ∀ k', ownerD h1 k' = ownerD h k' :=
      fun k' => ownerD_congr hproj1 rfl rfl rfl k'
    have hkeys1 : h1.keyAssignment.map Prod.fst =
        (aerase h.keyAssignment k).map Prod.fst ++ [k] := by
      show (ainsert h.keyAssignment k n.ID).map Prod.fst = _
      unfold ainsert
      rw [List.map_append]
      rfl
    have hkfresh : k ∉ h.keyAssignment.map Prod.fst :=
      hfresh k (List.mem_cons_self k ks)
    obtain ⟨h', hgo, hassign, hloads, hframe, htk⟩ := ih h1
      ((List.nodup_cons.1 hnd).2)
      (by
        intro k' hk'
        rw [hkeys1]
        intro hmem
        rcases List.mem_append.1 hmem with hmem1 | hmem2
        · obtain ⟨hin, -⟩ := mem_keys_aerase.1 hmem1
          exact hfresh k' (List.mem_cons_of_mem _ hk') hin
        · have : k' = k := by simpa using hmem2
          exact (List.nodup_cons.1 hnd).1 (this ▸ hk'))
      (by
        intro k' hk'
        obtain ⟨n', hg', hsome'⟩ := hder k' (List.mem_cons_of_mem _ hk')
        have hcongr := getNodeForHash_congr hproj1 rfl rfl (hashOf h k')
        rw [hg'] at hcongr
        have hv1 : hashOf h1 k' = hashOf h k' := rfl
        rw [hv1]
        cases hg1 : getNodeForHash h1 (hashOf h k') with
        | none => rw [hg1] at hcongr; simp at hcongr
        | some n1 =>
          rw [hg1] at hcongr
          simp only [Option.map_some', Option.some.injEq] at hcongr
          refine ⟨n1, rfl, ?_⟩
          rw [alookup_isSome_iff]
          have hkeq : h1.nodes.map Prod.fst = h.nodes.map Prod.fst :=
            nodeKeys_of_nodesProj hproj1
          rw [hkeq, hcongr, ← alookup_isSome_iff]
          exact hsome')
    refine ⟨h', by
        unfold rebalanceGo
        rw [hstep]
        exact hgo, ?_, ?_, hframe.trans (by
        unfold frame
        simp only [hproj1]), htk⟩
    · rw [hassign]
      show (ainsert h.keyAssignment k n.ID) ++ _ = _
      rw [ainsert, aerase_of_absent (alookup_eq_none.2 hkfresh)]
      have hmapeq : ks.map (fun k' => (k', ownerD h1 k')) =
          ks.map (fun k' => (k', ownerD h k')) :=
        List.map_congr_left (fun k' _ => by rw [howner k'])
      rw [hmapeq]
      have hown_k : ownerD h k = n.ID := by
        unfold ownerD
        rw [hg]
        rfl
      simp [hown_k, List.append_assoc]
    · intro id
      rw [hloads id]
      have hcnt : ks.countP (fun k' => decide (ownerD h1 k' = id)) =
          ks.countP (fun k' => decide (ownerD h k' = id)) :=
        List.countP_congr (fun k' _ => by rw [howner k'])
      rw [hcnt]
      have hown_k : ownerD h k = n.ID := by
        unfold ownerD
        rw [hg]
        rfl
      have hload1 : loadOf h1 id =
          loadOf h id + (if id = n.ID then 1 else 0) := by
        show ((alookup (aupdate h.nodes n.ID Node.IncrementLoad) id).map
          Node.Load).getD 0 = _
        rw [alookup_aupdate]
        by_cases hid : id = n.ID
        · rw [if_pos hid, if_pos hid, hid]
          unfold loadOf
          rw [hm]
          rfl
        · rw [if_neg hid, if_neg hid]
          show loadOf h id = loadOf h id + 0
          omega
      rw [hload1, List.countP_cons]
      by_cases hid : id = n.ID
      · rw [if_pos hid]
        rw [if_pos (by simp [hown_k, hid])]
        push_cast
        ring
      · rw [if_neg hid]
        rw [if_neg (by simp [hown_k]; exact fun hh => hid hh.symm)]
        push_cast
        ring

/-- C2 fails on the code: on the (reachable) state `c2H` — nodes `A`,`B`
with `MaxLoad = 1`, keys `x`,`y` both hashing nearest to `A` — the source's
`rebalanceKeys` puts both keys on `A` (load 2), whereas re-running step 2 of
`AssignKey` (the capacity-bounded walk the claim describes) moves the second
key to `B` (loads 1/1), under either processing order. -/
theorem c2_counterexample :
    (rebalanceKeys c2H).map (fun h => loadOf h "A") = some 2 ∧
    (rebalanceKeys c2H).map (fun h => loadOf h "B") = some 0 ∧
    (rebalanceSpec c2H ["x", "y"]).map (fun h => loadOf h "A") = some 1 ∧
    (rebalanceSpec c2H ["x", "y"]).map (fun h => loadOf h "B") = some 1 ∧
    (rebalanceSpec c2H ["y", "x"]).map (fun h => loadOf h "A") = some 1 ∧
    (rebalanceSpec c2H ["y", "x"]).map (fun h => loadOf h "B") = some 1 ∧
    c2H.keyAssignment.map Prod.fst = ["x", "y"] ∧
    (2 : ℤ) ≠ 1 :=
  ⟨by decide, by decide, by decide, by decide, by decide, by decide,
   by decide, by decide⟩

/-- C2 (amended): the rebalance run after every membership change resets all
loads to `0` and re-derives each assigned key's owner with the plain
nearest-position lookup (`getNodeForHash` — no capacity check, no
`CanAccept` walk), rebuilding each load counter as the number of keys now
owned; topology, node skeleton and the total count are untouched. -/
theorem c2_amended (h : HashRing)
    (hnd : (h.keyAssignment.map Prod.fst).Nodup)
    (hder : ∀ k ∈ h.keyAssignment.map Prod.fst,
      ∃ n, getNodeForHash h (hashOf h k) = some n ∧
        (alookup h.nodes n.ID).isSome) :
    ∃ h', rebalanceKeys h = some h' ∧
      h'.keyAssignment = h.keyAssignment.map (fun p => (p.1, ownerD h p.1)) ∧
      (∀ id, loadOf h' id =
        ((h.keyAssignment.map Prod.fst).countP
          (fun k => decide (ownerD h k = id)) : ℤ)) ∧
      frame h' = frame h ∧ h'.totalKeys = h.totalKeys := by
  unfold rebalanceKeys
  set reset : HashRing :=
    { h with nodes := h.nodes.map (fun p => (p.1, p.2.ResetLoad))
             keyAssignment := [] } with hresetdef
  have hprojr : nodesProj reset = nodesProj h :=
    map_nodesProj_value (f := Node.ResetLoad) (fun b => ⟨rfl, rfl⟩)
  have howner : ∀ k, ownerD reset k = ownerD h k :=
    fun k => ownerD_congr hprojr rfl rfl rfl k
  obtain ⟨h', hgo, hassign, hloads, hframe, htk⟩ :=
    rebalanceGo_spec (h.keyAssignment.map Prod.fst) reset hnd
      (by intro k _ hmem; simp at hmem)
      (by
        intro k hk
        obtain ⟨n, hg, hsome⟩ := hder k hk
        have hcongr := getNodeForHash_congr hprojr rfl rfl (hashOf h k)
        rw [hg] at hcongr
        have hv1 : hashOf reset k = hashOf h k := rfl
        rw [hv1]
        cases hg1 : getNodeForHash reset (hashOf h k) with
        | none => rw [hg1] at hcongr; simp at hcongr
        | some n1 =>
          rw [hg1] at hcongr
          simp only [Option.map_some', Option.some.injEq] at hcongr
          refine ⟨n1, rfl, ?_⟩
          rw [alookup_isSome_iff]
          have hkeq : reset.nodes.map Prod.fst = h.nodes.map Prod.fst :=
            nodeKeys_of_nodesProj hprojr
          rw [hkeq, hcongr, ← alookup_isSome_iff]
          exact hsome)
  refine ⟨h', hgo, ?_, ?_, hframe.trans (by
      unfold frame
      simp only [hprojr]), htk⟩
  · rw [hassign]
    show [] ++ _ = _
    rw [List.nil_append]
    rw [List.map_map]
    exact List.map_congr_left (fun p _ => by
      simp only [Function.comp_apply]
      rw [howner p.1])
  · intro id
    rw [hloads id]
    have hreset0 : loadOf reset id = 0 := by
      unfold loadOf
      show ((alookup (h.nodes.map (fun p => (p.1, p.2.ResetLoad))) id).map
        Node.Load).getD 0 = 0
      rw [alookup_map_value]
      cases alookup h.nodes id <;> rfl
    rw [hreset0]
    have : (h.keyAssignment.map Prod.fst).countP
        (fun k => decide (ownerD reset k = id)) =
        (h.keyAssignment.map Prod.fst).countP
          (fun k => decide (ownerD h k = id)) :=
      List.countP_congr (fun k _ => by rw [howner k])
    rw [this]
    ring

/-- Witness for C2 (amended) at the one-node ring holding key `x`. -/
theorem c2_amended_witness :
    ∃ h', rebalanceKeys c5H = some h' ∧
      h'.keyAssignment = c5H.keyAssignment.map (fun p => (p.1, ownerD c5H p.1)) ∧
      (∀ id, loadOf h' id =
        ((c5H.keyAssignment.map Prod.fst).countP
          (fun k => decide (ownerD c5H k = id)) : ℤ)) ∧
      frame h' = frame c5H ∧ h'.totalKeys = c5H.totalKeys :=
  c2_amended c5H (by decide)
    (by
      intro k hk
      have hkx : k = "x" := by simpa [c5H] using hk
      subst hkx
      exact ⟨⟨"A", "hostA", 1, 1, []⟩, by decide, by decide⟩)

theorem rre_fold_spec (id : String) :
    ∀ (ring : List ℕ) (acc : List ℕ) (m : List (ℕ × String)), ring.Nodup →
    (ring.foldl (rreStep id) (acc, m)).1 =
      acc ++ ring.filter (fun p => decide (¬ (alookup m p).getD "" = id)) ∧
    (∀ q, (q ∈ ring → ¬ (alookup m q).getD "" = id) →
      alookup (ring.foldl (rreStep id) (acc, m)).2 q = alookup m q) := by
  intro ring
  induction ring with
  | nil =>
    intro acc m _
    exact ⟨by simp, fun q _ => rfl⟩
  | cons p rest ih =>
    intro acc m hnd
    obtain ⟨hp_notin, hrest_nd⟩ := List.nodup_cons.1 hnd
    by_cases hown : (alookup m p).getD "" = id
    · have hstep : rreStep id (acc, m) p = (acc, aerase m p) := by
        unfold rreStep
        rw [if_neg (by simpa using hown)]
      rw [List.foldl_cons, hstep]
      obtain ⟨ih1, ih2⟩ := ih acc (aerase m p) hrest_nd
      constructor
      · rw [ih1, List.filter_cons, if_neg (by simpa using hown)]
        congr 1
        apply List.filter_congr
        intro q hq
        have hqp : q ≠ p := fun hh => hp_notin (hh ▸ hq)
        rw [alookup_aerase, if_neg hqp]
      · intro q hq
        by_cases hqp : q = p
        · subst hqp
          exact absurd hown (hq (List.mem_cons_self q rest))
        · rw [ih2 q (fun hqrest => by
            rw [alookup_aerase, if_neg hqp]
            exact hq (List.mem_cons_of_mem _ hqrest))]
          rw [alookup_aerase, if_neg hqp]
    · have hstep : rreStep id (acc, m) p = (acc ++ [p], m) := by
        unfold rreStep
        rw [if_pos (by simpa using hown)]
      rw [List.foldl_cons, hstep]
      obtain ⟨ih1, ih2⟩ := ih (acc ++ [p]) m hrest_nd
      constructor
      · rw [ih1, List.filter_cons, if_pos (by simpa using hown),
          List.append_assoc]
        rfl
      · intro q hq
        exact ih2 q (fun hqrest => hq (List.mem_cons_of_mem _ hqrest))

theorem alookup_foldl_ainsert (id : String) :
    ∀ (hs : List ℕ) (m : List (ℕ × String)) (q : ℕ),
    alookup (hs.foldl (fun mm p => ainsert mm p id) m) q =
      if q ∈ hs then some id else alookup m q := by
  intro hs
  induction hs with
  | nil => intro m q; simp
  | cons p rest ih =>
    intro m q
    rw [List.foldl_cons, ih]
    by_cases hq : q ∈ rest
    · rw [if_pos hq, if_pos (List.mem_cons_of_mem _ hq)]
    · rw [if_neg hq, alookup_ainsert]
      by_cases hqp : q = p
      · rw [if_pos hqp, if_pos (hqp ▸ List.mem_cons_self p rest)]
      · rw [if_neg hqp, if_neg (by simp [hqp, hq])]

theorem WF_of_frame {h h' : HashRing} (hf : frame h' = frame h)
    (hwf : RingWF h) : RingWF h' := by
  obtain ⟨hr, hm, hv, _, _, hp⟩ := frame_eq_fields hf
  obtain ⟨w1, w2, w3, w4, w5, w6⟩ := hwf
  have hk : nodeKeys h' = nodeKeys h := nodeKeys_of_nodesProj hp
  have hl : h'.nodes.length = h.nodes.length := nodes_length_of_nodesProj hp
  refine ⟨hr ▸ w1, hr ▸ w2, hk ▸ w3, ?_, ?_, ?_⟩
  · intro p hpmem
    rw [hm, hk]
    exact w4 p (hr ▸ hpmem)
  · intro id hid
    show ownsCount h' id = h'.virtualNodes.toNat
    unfold ownsCount
    rw [hr, hm, hv]
    exact w5 id (hk ▸ hid)
  · rw [hr, hv, hl]
    exact w6

theorem WF_updateMaxLoads {h : HashRing} (hwf : RingWF h) :
    RingWF (updateMaxLoads h) := by
  unfold updateMaxLoads
  split
  · exact hwf
  · obtain ⟨w1, w2, w3, w4, w5, w6⟩ := hwf
    have hk : (h.nodes.map
        (fun p => (p.1, { p.2 with MaxLoad := computeMaxLoad h }))).map Prod.fst =
        h.nodes.map Prod.fst := by
      rw [List.map_map]
      rfl
    refine ⟨w1, w2, ?_, ?_, ?_, ?_⟩
    · show (List.map Prod.fst _).Nodup
      rw [hk]
      exact w3
    · intro p hp
      show (alookup h.ringMap p).getD "" ∈ List.map Prod.fst _
      rw [hk]
      exact w4 p hp
    · intro id hid
      refine w5 id ?_
      show id ∈ nodeKeys h
      have : id ∈ List.map Prod.fst (h.nodes.map
        (fun p => (p.1, { p.2 with MaxLoad := computeMaxLoad h }))) := hid
      rw [hk] at this
      exact this
    · show h.ring.length = h.virtualNodes.toNat * (List.map _ h.nodes).length
      rw [List.length_map]
      exact w6

theorem virtualHashes_length (h : HashRing) (id : String) :
    (virtualHashes h id).length = h.virtualNodes.toNat := by
  unfold virtualHashes
  simp

theorem addNode_WF {h : HashRing} {node : Node}
    (hwf : RingWF h) (hfresh : FreshHashes h node.ID) :
    RingWFAfter (AddNode h node) := by
  intro s hs
  unfold AddNode at hs
  by_cases hx : (alookup h.nodes node.ID).isSome
  · rw [if_pos hx] at hs
    simp only [Option.some.injEq] at hs
    rw [← hs]
    exact hwf
  · rw [if_neg hx] at hs
    simp only [] at hs
    rw [Option.map_eq_some'] at hs
    obtain ⟨h3, hr3, heq⟩ := hs
    have habs : alookup h.nodes node.ID = none :=
      Option.not_isSome_iff_eq_none.1 hx
    obtain ⟨hndh, hdisj⟩ := hfresh
    obtain ⟨w1, w2, w3, w4, w5, w6⟩ := hwf
    have hperm : List.Perm
        (List.insertionSort (· ≤ ·) (h.ring ++ virtualHashes h node.ID))
        (h.ring ++ virtualHashes h node.ID) :=
      List.perm_insertionSort _ _
    have hnodes1 : ainsert h.nodes node.ID node = h.nodes ++ [(node.ID, node)] := by
      unfold ainsert
      rw [aerase_of_absent habs]
    have hkeys1 : (ainsert h.nodes node.ID node).map Prod.fst =
        h.nodes.map Prod.fst ++ [node.ID] := by
      rw [hnodes1, List.map_append]
      rfl
    have hIDnot : node.ID ∉ h.nodes.map Prod.fst := alookup_eq_none.1 habs
    have hmap : ∀ q, alookup ((virtualHashes h node.ID).foldl
        (fun mm p => ainsert mm p node.ID) h.ringMap) q =
        if q ∈ virtualHashes h node.ID then some node.ID else alookup h.ringMap q :=
      alookup_foldl_ainsert node.ID (virtualHashes h node.ID) h.ringMap
    have hnotin : ∀ p ∈ h.ring, p ∉ virtualHashes h node.ID :=
      fun p hp hph => hdisj p hph hp
    have h1wf : RingWF
        { h with nodes := ainsert h.nodes node.ID node,
                 ring := List.insertionSort (· ≤ ·)
                   (h.ring ++ virtualHashes h node.ID),
                 ringMap := (virtualHashes h node.ID).foldl
                   (fun mm p => ainsert mm p node.ID) h.ringMap } := by
      refine ⟨List.sorted_insertionSort _ _, ?_, ?_, ?_, ?_, ?_⟩
      · rw [hperm.nodup_iff]
        exact List.nodup_append.2 ⟨w2, hndh, fun a ha hb => hdisj a hb ha⟩
      · show ((ainsert h.nodes node.ID node).map Prod.fst).Nodup
        rw [hkeys1]
        refine List.nodup_append.2 ⟨w3, List.nodup_singleton _, ?_⟩
        intro a ha hb
        rw [List.mem_singleton] at hb
        exact hIDnot (hb ▸ ha)
      · intro p hp
        show (alookup _ p).getD "" ∈ (ainsert h.nodes node.ID node).map Prod.fst
        rw [hkeys1, hmap p]
        rw [hperm.mem_iff, List.mem_append] at hp
        rcases hp with hp | hp
        · rw [if_neg (hnotin p hp)]
          exact List.mem_append.2 (Or.inl (w4 p hp))
        · rw [if_pos hp]
          exact List.mem_append.2 (Or.inr (List.mem_singleton.2 rfl))
      · intro id hid
        show (List.filter _ _).length = _
        rw [← List.countP_eq_length_filter]
        have hsplit : List.countP
            (fun p => decide ((alookup ((virtualHashes h node.ID).foldl
              (fun mm p => ainsert mm p node.ID) h.ringMap) p).getD "" = id))
            (List.insertionSort (· ≤ ·) (h.ring ++ virtualHashes h node.ID)) =
            List.countP _ h.ring + List.countP _ (virtualHashes h node.ID) :=
          (hperm.countP_eq _).trans (List.countP_append _ _ _)
        rw [hsplit]
        have hring_part : List.countP
            (fun p => decide ((alookup ((virtualHashes h node.ID).foldl
              (fun mm p => ainsert mm p node.ID) h.ringMap) p).getD "" = id))
            h.ring =
            List.countP (fun p => decide ((alookup h.ringMap p).getD "" = id))
              h.ring := by
          apply List.countP_congr
          intro p hp
          rw [hmap p, if_neg (hnotin p hp)]
        rw [hring_part]
        show _ = h.virtualNodes.toNat
        have hidmem : id ∈ h.nodes.map Prod.fst ++ [node.ID] := by
          have : id ∈ (ainsert h.nodes node.ID node).map Prod.fst := hid
          rw [hkeys1] at this
          exact this
        rcases List.mem_append.1 hidmem with hidmem | hidmem
        · have hidne : id ≠ node.ID := fun hh => hIDnot (hh ▸ hidmem)
          have hhash_part : List.countP
              (fun p => decide ((alookup ((virtualHashes h node.ID).foldl
                (fun mm p => ainsert mm p node.ID) h.ringMap) p).getD "" = id))
              (virtualHashes h node.ID) = 0 := by
            rw [List.countP_eq_zero]
            intro p hp
            rw [hmap p, if_pos hp]
            simp only [Option.getD_some, decide_eq_true_eq]
            exact fun hh => hidne hh.symm
          rw [hhash_part]
          have hcnt := w5 id hidmem
          unfold ownsCount at hcnt
          rw [← List.countP_eq_length_filter] at hcnt
          rw [hcnt]
          omega
        · rw [List.mem_singleton] at hidmem
          have hring0 : List.countP
              (fun p => decide ((alookup h.ringMap p).getD "" = id)) h.ring = 0 := by
            rw [List.countP_eq_zero]
            intro p hp
            have hw := w4 p hp
            simp only [decide_eq_true_eq]
            intro hh
            exact hIDnot (hidmem ▸ hh ▸ hw)
          have hhashall : List.countP
              (fun p => decide ((alookup ((virtualHashes h node.ID).foldl
                (fun mm p => ainsert mm p node.ID) h.ringMap) p).getD "" = id))
              (virtualHashes h node.ID) = (virtualHashes h node.ID).length := by
            rw [List.countP_eq_length]
            intro p hp
            rw [hmap p, if_pos hp]
            simp [hidmem]
          rw [hring0, hhashall, virtualHashes_length]
          omega
      · show (List.insertionSort (· ≤ ·)
            (h.ring ++ virtualHashes h node.ID)).length =
          h.virtualNodes.toNat * ((ainsert h.nodes node.ID node).length)
        rw [hperm.length_eq, List.length_append, virtualHashes_length, w6,
          hnodes1, List.length_append]
        simp [Nat.mul_add]
    have h2wf := WF_updateMaxLoads h1wf
    obtain ⟨hf3, -⟩ := rebalanceKeys_frame hr3
    have h3wf := WF_of_frame hf3 h2wf
    have hs1 : s.1 = h3 := by rw [← heq]
    rw [hs1]
    exact h3wf

theorem removeNode_WF {h : HashRing} {id : String}
    (hwf : RingWF h) : RingWFAfter (RemoveNode h id) := by
  intro s hs
  unfold RemoveNode at hs
  cases hn : alookup h.nodes id with
  | none =>
    simp only [hn, Option.some.injEq] at hs
    rw [← hs]
    exact hwf
  | some node =>
    simp only [hn] at hs
    rw [Option.map_eq_some'] at hs
    obtain ⟨h3, hr3, heq⟩ := hs
    obtain ⟨w1, w2, w3, w4, w5, w6⟩ := hwf
    obtain ⟨hfst, hlook⟩ := rre_fold_spec id h.ring [] h.ringMap w2
    have hfst' : (removeRingEntries h.ring h.ringMap id).1 =
        h.ring.filter (fun p => decide (¬ (alookup h.ringMap p).getD "" = id)) := by
      show (h.ring.foldl (rreStep id) ([], h.ringMap)).1 = _
      rw [hfst]
      simp
    have hlook' : ∀ q, (q ∈ h.ring → ¬ (alookup h.ringMap q).getD "" = id) →
        alookup (removeRingEntries h.ring h.ringMap id).2 q =
          alookup h.ringMap q := hlook
    have hidmem : id ∈ h.nodes.map Prod.fst :=
      alookup_isSome_iff.1 (by rw [hn]; rfl)
    have hcid : List.countP
        (fun p => decide ((alookup h.ringMap p).getD "" = id)) h.ring =
        h.virtualNodes.toNat := by
      have := w5 id hidmem
      unfold ownsCount at this
      rw [← List.countP_eq_length_filter] at this
      exact this
    have hnlen : h.nodes.length = (aerase h.nodes id).length + 1 :=
      length_aerase_of_nodup w3 (by rw [hn]; rfl)
    have h1wf : RingWF
        { h with ring := (removeRingEntries h.ring h.ringMap id).1,
                 ringMap := (removeRingEntries h.ring h.ringMap id).2,
                 totalKeys := h.totalKeys - node.Load,
                 nodes := aerase h.nodes id } := by
      refine ⟨?_, ?_, ?_, ?_, ?_, ?_⟩
      · show ((removeRingEntries h.ring h.ringMap id).1).Pairwise (· ≤ ·)
        rw [hfst']
        exact List.Pairwise.sublist (List.filter_sublist h.ring) w1
      · show ((removeRingEntries h.ring h.ringMap id).1).Nodup
        rw [hfst']
        exact List.Nodup.sublist (List.filter_sublist h.ring) w2
      · exact keys_nodup_aerase w3
      · intro p hp
        show (alookup (removeRingEntries h.ring h.ringMap id).2 p).getD "" ∈
          (aerase h.nodes id).map Prod.fst
        rw [hfst'] at hp
        have hmem := List.mem_of_mem_filter hp
        have hpred := List.of_mem_filter hp
        simp only [decide_eq_true_eq] at hpred
        rw [hlook' p (fun _ => hpred)]
        exact mem_keys_aerase.2 ⟨w4 p hmem, hpred⟩
      · intro id' hid'
        obtain ⟨hid'mem, hid'ne⟩ := mem_keys_aerase.1 hid'
        show (List.filter _ (removeRingEntries h.ring h.ringMap id).1).length = _
        rw [← List.countP_eq_length_filter, hfst']
        have hcong : List.countP
            (fun p => decide ((alookup (removeRingEntries h.ring h.ringMap id).2
              p).getD "" = id'))
            (h.ring.filter (fun p =>
              decide (¬ (alookup h.ringMap p).getD "" = id))) =
            List.countP (fun p => decide ((alookup h.ringMap p).getD "" = id'))
              (h.ring.filter (fun p =>
                decide (¬ (alookup h.ringMap p).getD "" = id))) := by
          apply List.countP_congr
          intro p hp
          have hmem := List.mem_of_mem_filter hp
          have hpred := List.of_mem_filter hp
          simp only [decide_eq_true_eq] at hpred
          rw [hlook' p (fun _ => hpred)]
        rw [hcong, List.countP_filter]
        have hcong2 : List.countP (fun p =>
            decide ((alookup h.ringMap p).getD "" = id') &&
              decide (¬ (alookup h.ringMap p).getD "" = id)) h.ring =
            List.countP (fun p =>
              decide ((alookup h.ringMap p).getD "" = id')) h.ring := by
          apply List.countP_congr
          intro p _
          constructor
          · intro hb
            exact (Bool.and_eq_true _ _ ▸ hb).1
          · intro hb
            rw [Bool.and_eq_true]
            refine ⟨hb, ?_⟩
            simp only [decide_eq_true_eq] at hb ⊢
            rw [hb]
            exact hid'ne
        rw [hcong2]
        have := w5 id' hid'mem
        unfold ownsCount at this
        rw [← List.countP_eq_length_filter] at this
        exact this
      · show ((removeRingEntries h.ring h.ringMap id).1).length =
          h.virtualNodes.toNat * (aerase h.nodes id).length
        rw [hfst', ← List.countP_eq_length_filter]
        have hsplit := List.length_eq_countP_add_countP
          (p := fun p => decide ((alookup h.ringMap p).getD "" = id)) (l := h.ring)
        have hcompl : List.countP (fun p =>
            ¬ (decide ((alookup h.ringMap p).getD "" = id)) = true) h.ring =
            List.countP (fun p =>
              decide (¬ (alookup h.ringMap p).getD "" = id)) h.ring := by
          apply List.countP_congr
          intro p _
          simp
        rw [hcid] at hsplit
        rw [← hcompl]
        have hw6 : h.virtualNodes.toNat + h.virtualNodes.toNat *
            (aerase h.nodes id).length = h.ring.length := by
          rw [w6, hnlen, Nat.mul_succ]
          omega
        omega
    have h2wf := WF_updateMaxLoads h1wf
    obtain ⟨hf3, -⟩ := rebalanceKeys_frame hr3
    have h3wf := WF_of_frame hf3 h2wf
    have hs1 : s.1 = h3 := by rw [← heq]
    rw [hs1]
    exact h3wf

/-- C9: after every operation the ring's position list stays sorted
ascending, and — absent hash collisions among virtual positions
(`FreshHashes`) — its length stays `virtualNodes × liveNodes`; the
well-formedness bundle `RingWF` (sorted, duplicate-free, every position
owned by a live node, every live node owning exactly `virtualNodes`
positions, and the length equation) holds for a fresh ring and is preserved
by `AddNode`, `RemoveNode`, `GetNodeWithBoundedLoad` and `RemoveKey`;
`GetNode`, `Stats` and `GetNodes` are read-only. -/
theorem c9_invariant :
    (∀ (hf : String → ℕ) (config : Config), RingWF (NewHashRing hf config)) ∧
    (∀ (h : HashRing) (node : Node), RingWF h → FreshHashes h node.ID →
      RingWFAfter (AddNode h node)) ∧
    (∀ (h : HashRing) (id : String), RingWF h →
      RingWFAfter (RemoveNode h id)) ∧
    (∀ (h : HashRing) (key : String) (s : HashRing × Except RErr Node),
      RingWF h → GetNodeWithBoundedLoad h key = some s → RingWF s.1) ∧
    (∀ (h : HashRing) (key : String), RingWF h → RingWF (RemoveKey h key).1) := by
  refine ⟨?_, ?_, ?_, ?_, ?_⟩
  · intro hf config
    refine ⟨List.Pairwise.nil, List.nodup_nil, List.nodup_nil, ?_, ?_, ?_⟩
    · intro p hp
      exact absurd hp (List.not_mem_nil p)
    · intro id hid
      exact absurd hid (List.not_mem_nil id)
    · simp [NewHashRing]
  · exact fun h node hwf hfresh => addNode_WF hwf hfresh
  · exact fun h id hwf => removeNode_WF hwf
  · exact fun h key s hwf hs => WF_of_frame (boundedLoad_frame hs) hwf
  · exact fun h key hwf => WF_of_frame (removeKey_frame h key) hwf

/-- Witness for C9: the empty ring is well-formed and adding node `A` with
its (trivially collision-free) virtual position preserves well-formedness. -/
theorem c9_invariant_witness :
    RingWF baseRing ∧ RingWFAfter (AddNode baseRing nodeA) :=
  ⟨c9_invariant.1 cexHash cfg1,
   c9_invariant.2.1 baseRing nodeA (c9_invariant.1 cexHash cfg1)
     ⟨by decide, by decide⟩⟩

end SmolHash
